import Mathlib

/-!
# ALLA proof-of-concept: a verification development

A shallow embedding, in Lean 4, of the core of the ALLA semantic-graph
proof-of-concept (a Python program): the lexical normalizer, the relevance
classifier, the graph-construction crawler (`Phase1_Parser.build_graph`),
the graph store (`SemanticGraph`), and the semantic search layer
(`SemanticSearcher`).  Words are Lean `String`s, the external definition
provider is a pure function `String → Option DefEntry`, floating-point
similarity scores are modelled as rationals, and the stateful crawler /
BFS loops are modelled as step functions iterated a sufficient number of
times (sufficiency is proved).
-/

namespace ALLA

/-! ## Lexical normalizer (`Phase1_Parser._extract_words`)

Python: `re.findall(r'\b\w+\b', text.lower())` followed by stop-word
filtering.  `\w` matches alphanumeric characters and the underscore, so the
regex extracts the maximal runs of such characters. -/

def isWordChar (c : Char) : Bool := c.isAlphanum || c == '_'

/-- `str.lower()`, written directly on the character list (it agrees with
`String.toLower`, see `lowerStr_eq_toLower`, but also reduces inside the
kernel). -/
def lowerStr (s : String) : String := String.mk (s.data.map Char.toLower)

theorem lowerStr_eq_toLower (s : String) : s.toLower = lowerStr s :=
  String.map_eq _ _

/-- Accumulator worker for `wordRuns`: `acc` holds the run in progress,
reversed. -/
def wordRunsAux : List Char → List Char → List String
  | [], [] => []
  | [], a :: as => [String.mk (a :: as).reverse]
  | c :: rest, acc =>
    if isWordChar c then wordRunsAux rest (c :: acc)
    else
      match acc with
      | [] => wordRunsAux rest []
      | a :: as => String.mk (a :: as).reverse :: wordRunsAux rest []

/-- Maximal runs of word characters in a character list (the `\b\w+\b`
matches of the regex in `_extract_words`). -/
def wordRuns (cs : List Char) : List String := wordRunsAux cs []

/-- The fixed stop-word set of `Phase1_Parser.__init__` (a Python set
literal; the duplicated members "but", "for" are harmless). -/
def stop_words : List String :=
  ["a", "an", "the",
   "aboard", "about", "above", "across", "after", "against", "along",
   "amid", "among", "around", "as", "at", "before", "behind", "below",
   "beneath", "beside", "between", "beyond", "but", "by", "concerning",
   "considering", "despite", "down", "during", "except", "for", "from",
   "in", "inside", "into", "like", "near", "of", "off", "on", "onto",
   "out", "outside", "over", "past", "regarding", "round", "since",
   "through", "throughout", "to", "toward", "under", "underneath",
   "until", "unto", "up", "upon", "with", "within", "without",
   "and", "or", "nor", "so", "yet",
   "also", "often", "very", "just", "only", "not", "no", "yes", "well",
   "too"]

/-- `Phase1_Parser._extract_words`: lowercase, split into word runs, drop
stop words, keeping first-occurrence order. -/
def extract_words (text : String) : List String :=
  (wordRuns (lowerStr text).data).filter (fun w => !stop_words.contains w)

/-! ## Substring matching (Python's `in` operator on strings) -/

/-- `startsWithSeq needle hay`: `needle` is an initial segment of `hay`. -/
def startsWithSeq : List Char → List Char → Bool
  | [], _ => true
  | _ :: _, [] => false
  | a :: as, b :: bs => a == b && startsWithSeq as bs

/-- `containsSeq needle hay`: `needle` occurs contiguously in `hay`
(Python: `needle in hay` for strings). -/
def containsSeq (needle : List Char) : List Char → Bool
  | [] => startsWithSeq needle []
  | b :: bs => startsWithSeq needle (b :: bs) || containsSeq needle bs

/-- Python `sub in s` for strings. -/
def strIn (sub s : String) : Bool := containsSeq sub.data s.data

/-! ## Definition provider and cached client (`FreeDictionaryClient`)

The external dictionary is modelled as a pure function from a word to the
first sense's part of speech and definition text (`api_data[0]['meanings']
[0]['partOfSpeech']` / `...['definitions'][0]['definition']`), or `none`
when the lookup fails.  The client caches: a repeated `get_definition`
invocation for a cached word performs no new external fetch.  `callLog`
records every `get_definition` invocation, `fetchLog` every external
fetch; the run starts with an empty cache file. -/

structure DefEntry where
  pos : String
  text : String
deriving DecidableEq, Repr

/-- The external dictionary, as a pure function. -/
def Provider : Type := String → Option DefEntry

structure ApiClient where
  cache : List String
  fetchLog : List String
  callLog : List String
deriving DecidableEq, Repr

def ApiClient.init : ApiClient := ⟨[], [], []⟩

/-- `FreeDictionaryClient.get_definition`: returns the provider's answer
for `w` (negative answers are cached too), fetching externally only on a
cache miss. -/
def get_definition (c : ApiClient) (lookup : Provider) (w : String) :
    Option DefEntry × ApiClient :=
  if w ∈ c.cache then
    (lookup w, { c with callLog := c.callLog ++ [w] })
  else
    (lookup w,
     { cache := c.cache ++ [w],
       fetchLog := c.fetchLog ++ [w],
       callLog := c.callLog ++ [w] })

/-! ## Graph store (`SemanticGraph` over `networkx.Graph`)

Nodes are kept in insertion order (as `networkx` dictionaries do); each
edge is kept once as an unordered pair with its weight, and `hasEdge` is
symmetric.  `add_edge` raises (`ValueError`, the spec's `InvalidEdgeError`)
unless both endpoints already have nodes, and is a no-op on an existing
edge. -/

structure SemanticNode where
  word : String
  pos : String
  definition : String
  usage_patterns : List String
deriving DecidableEq, Repr

structure SemanticGraph where
  nodes : List SemanticNode
  edges : List (String × String × ℚ)
deriving DecidableEq, Repr

def SemanticGraph.empty : SemanticGraph := ⟨[], []⟩

/-- The words of the graph's nodes, in insertion order. -/
def SemanticGraph.wordList (g : SemanticGraph) : List String :=
  g.nodes.map (·.word)

def SemanticGraph.hasNodeW (g : SemanticGraph) (w : String) : Bool :=
  g.wordList.contains w

/-- `SemanticGraph.get_node`. -/
def SemanticGraph.get_node (g : SemanticGraph) (w : String) :
    Option SemanticNode :=
  g.nodes.find? (fun n => n.word == w)

/-- `SemanticGraph.add_node` (networkx `add_node`: an existing node keeps
its position, its data is replaced; a new node is appended). -/
def SemanticGraph.add_node (g : SemanticGraph) (n : SemanticNode) :
    SemanticGraph :=
  if g.nodes.any (fun m => m.word == n.word) then
    { g with nodes := g.nodes.map (fun m => if m.word == n.word then n else m) }
  else
    { g with nodes := g.nodes ++ [n] }

def SemanticGraph.hasEdge (g : SemanticGraph) (a b : String) : Bool :=
  g.edges.any (fun e => (e.1 == a && e.2.1 == b) || (e.1 == b && e.2.1 == a))

/-- `SemanticGraph.add_edge`: `ValueError` when an endpoint has no node
(the spec's `InvalidEdgeError`); otherwise adds the edge (no-op when it
already exists, as in networkx). -/
def SemanticGraph.add_edge (g : SemanticGraph) (w1 w2 : String) (weight : ℚ) :
    Except String SemanticGraph :=
  if g.hasNodeW w1 && g.hasNodeW w2 then
    .ok (if g.hasEdge w1 w2 then g
         else { g with edges := g.edges ++ [(w1, w2, weight)] })
  else
    .error "One or both nodes not found in the graph."

/-- The crawler's (always guarded) calls of `add_edge` with the default
weight 1.0; on the (dead, see `C7`) error branch the graph is unchanged. -/
def SemanticGraph.addEdgeD (g : SemanticGraph) (w1 w2 : String) :
    SemanticGraph :=
  match g.add_edge w1 w2 1 with
  | .ok g' => g'
  | .error _ => g

/-! ## Adjacency and unweighted shortest-path distance

`networkx` stores an adjacency dictionary: the neighbors of `w` appear in
the order the incident edges were inserted, each once (a self-loop
contributes `w` itself once).  `nx.shortest_path` / `nx.shortest_path_length`
with no weight argument compute fewest-hop distances; we embed that library
contract as `distOpt`, the least `n` such that `b` is reachable from `a`
in at most `n` hops (`reachN`). -/

/-- Append an element if absent (preserving first-occurrence order). -/
def addIfAbsent (l : List String) (x : String) : List String :=
  if x ∈ l then l else l ++ [x]

/-- The neighbors of `w`, in edge-insertion order. -/
def SemanticGraph.neighborsOf (g : SemanticGraph) (w : String) : List String :=
  g.edges.foldl
    (fun acc e =>
      if e.1 = w then addIfAbsent acc e.2.1
      else if e.2.1 = w then addIfAbsent acc e.1
      else acc)
    []

/-- All endpoints of all edges (with repetitions); every BFS-discoverable
vertex other than the start lies in this list. -/
def SemanticGraph.allEndpoints (g : SemanticGraph) : List String :=
  g.edges.foldr (fun e acc => e.1 :: e.2.1 :: acc) []

/-- One closure step: add every neighbor of every current vertex. -/
def SemanticGraph.reachStep (g : SemanticGraph) (cur : List String) :
    List String :=
  cur.foldl (fun acc u => (g.neighborsOf u).foldl addIfAbsent acc) cur

/-- Vertices reachable from `a` in at most `n` hops. -/
def SemanticGraph.reachN (g : SemanticGraph) (a : String) : Nat → List String
  | 0 => [a]
  | n + 1 => g.reachStep (g.reachN a n)

/-- The saturation bound for `reachN`. -/
def SemanticGraph.distBound (g : SemanticGraph) : Nat :=
  g.allEndpoints.length

/-- Upward search, from level `start` with the given fuel, for the least
level whose reach set contains `b`. -/
def distSearch (g : SemanticGraph) (a b : String) : Nat → Nat → Option Nat
  | _, 0 => none
  | start, fuel + 1 =>
    if b ∈ g.reachN a start then some start
    else distSearch g a b (start + 1) fuel

/-- The unweighted shortest-path distance (`nx.shortest_path_length` with
no weight): the least `n` with `b` reachable from `a` within `n` hops, or
`none` when `b` is unreachable from `a`. -/
def SemanticGraph.distOpt (g : SemanticGraph) (a b : String) : Option Nat :=
  distSearch g a b 0 (g.distBound + 1)

/-! ## `SemanticGraph.find_path`

`nx.shortest_path(G, source, target)` raises `NodeNotFound` when either
endpoint is missing from the graph; with both endpoints present it returns
a fewest-hop path, or raises `NetworkXNoPath` — which is the only
exception `find_path` catches (returning `None`).  The uncaught
`NodeNotFound` is modelled by the `Except.error` branch. -/

/-- Reconstruct a path of length `d` from `a` to `b` by walking backwards
through the `reachN` layers (the fewest-hop path the library returns). -/
def SemanticGraph.pathTo (g : SemanticGraph) (a b : String) : Nat → List String
  | 0 => [b]
  | d + 1 =>
    match (g.reachN a d).find? (fun u => (g.neighborsOf u).contains b) with
    | some u => g.pathTo a u d ++ [b]
    | none => [b]

/-- `SemanticGraph.find_path`: `.error` models the uncaught `NodeNotFound`
exception; `.ok none` models the caught `NetworkXNoPath` (returning
`None`); `.ok (some p)` is a returned shortest path. -/
def SemanticGraph.find_path (g : SemanticGraph) (w1 w2 : String) :
    Except String (Option (List String)) :=
  if g.hasNodeW w1 && g.hasNodeW w2 then
    match g.distOpt w1 w2 with
    | some d => .ok (some (g.pathTo w1 w2 d))
    | none => .ok none
  else
    .error "NodeNotFound: source or target is not in G"

/-! ## Semantic search engine (`SemanticSearcher`)

`find_similar_words` iterates the node set in insertion order, skips the
query word, scores every reachable other node `1/(1 + d)` (rationals model
the Python floats), sorts by score descending — Python's `list.sort` is
stable, so ties keep node-insertion order — and truncates to `top_n`.  -/

/-- `SemanticSearcher._build_inverted_index` (a word-to-position map; built
on construction, not consulted by the search operations). -/
def build_inverted_index (g : SemanticGraph) : List (String × Nat) :=
  g.wordList.enum.map (fun p => (p.2, p.1))

/-- Stable descending insertion by score: the new element goes after every
element of greater-or-equal score (Python's stable `sort(reverse=True)`). -/
def insertDesc (p : String × ℚ) : List (String × ℚ) → List (String × ℚ)
  | [] => [p]
  | q :: qs => if q.2 < p.2 then p :: q :: qs else q :: insertDesc p qs

/-- Stable sort, descending by score. -/
def sortDesc (l : List (String × ℚ)) : List (String × ℚ) :=
  l.foldl (fun acc p => insertDesc p acc) []

/-- The scored candidate list of `find_similar_words`, in node-insertion
order: every node other than `word`, with `1/(1+d)` for its distance `d`;
unreachable nodes (the caught `NetworkXNoPath`) are skipped. -/
def simCandidates (g : SemanticGraph) (word : String) : List (String × ℚ) :=
  (g.wordList.filter (fun o => o ≠ word)).filterMap
    (fun o => (g.distOpt word o).map
      (fun d => (o, (1 : ℚ) / (1 + (d : ℚ)))))

/-- `SemanticSearcher.find_similar_words`. -/
def find_similar_words (g : SemanticGraph) (word : String) (top_n : Nat) :
    List (String × ℚ) :=
  if ¬ g.hasNodeW word then []
  else (sortDesc (simCandidates g word)).take top_n

/-! ## `SemanticSearcher.get_semantic_neighborhood`

The Python loop keeps a `visited` set (marked at enqueue time), a FIFO
queue of `(word, distance)` pairs, and a `defaultdict(list)` mapping each
positive distance to the words popped at that distance.  We model one loop
iteration as a total step function `gsnStep` and iterate it; the fuel
`gsnFuel` provably empties the queue (see the termination lemmas). -/

structure GsnState where
  visited : List String
  queue : List (String × Nat)
  acc : List (Nat × String)
deriving DecidableEq, Repr

/-- The inner `for neighbor in self.graph.neighbors(current_word)` loop:
mark-and-enqueue every not-yet-visited neighbor at distance `nd`. -/
def gsnPush (nd : Nat) :
    List String × List (String × Nat) → List String →
    List String × List (String × Nat)
  | vq, [] => vq
  | (vis, q), v :: vs =>
    if v ∈ vis then gsnPush nd (vis, q) vs
    else gsnPush nd (vis ++ [v], q ++ [(v, nd)]) vs

/-- One iteration of the `while queue` loop of
`get_semantic_neighborhood`. -/
def gsnStep (g : SemanticGraph) (radius : Nat) (s : GsnState) : GsnState :=
  match s.queue with
  | [] => s
  | (w, d) :: rest =>
    let acc := if 0 < d then s.acc ++ [(d, w)] else s.acc
    if d < radius then
      let vq := gsnPush (d + 1) (s.visited, rest) (g.neighborsOf w)
      ⟨vq.1, vq.2, acc⟩
    else
      ⟨s.visited, rest, acc⟩

def gsnInit (word : String) : GsnState := ⟨[word], [(word, 0)], []⟩

/-- Twice the number of endpoint occurrences not yet visited, plus the
queue length: a measure that strictly decreases at every iteration on a
non-empty queue. -/
def gsnMeasure (g : SemanticGraph) (s : GsnState) : Nat :=
  2 * (g.allEndpoints.filter (fun v => ¬ v ∈ s.visited)).length +
    s.queue.length

def gsnFuel (g : SemanticGraph) (word : String) : Nat :=
  gsnMeasure g (gsnInit word)

/-- The `defaultdict(list)` built from the append log: each key maps to
the words appended under it, keys in first-appearance order. -/
def dictStep (dict : List (Nat × List String)) (p : Nat × String) :
    List (Nat × List String) :=
  if dict.any (fun e => e.1 == p.1) then
    dict.map (fun e => if e.1 == p.1 then (e.1, e.2 ++ [p.2]) else e)
  else
    dict ++ [(p.1, [p.2])]

def dictOf (acc : List (Nat × String)) : List (Nat × List String) :=
  acc.foldl dictStep []

/-- Dictionary lookup on the result of `get_semantic_neighborhood`. -/
def dictGet (dict : List (Nat × List String)) (d : Nat) :
    Option (List String) :=
  (dict.find? (fun e => e.1 == d)).map (·.2)

/-- `SemanticSearcher.get_semantic_neighborhood`. -/
def get_semantic_neighborhood (g : SemanticGraph) (word : String)
    (radius : Nat) : List (Nat × List String) :=
  if ¬ g.hasNodeW word then []
  else dictOf ((gsnStep g radius)^[gsnFuel g word] (gsnInit word)).acc

/-! ## The crawler (`Phase1_Parser`)

The parser's configuration: the seed definition, the context keywords
(a Python set; we fix an iteration order as a list — the classifier's
boolean verdicts are order-independent), the hop bound, and the injected
definition provider. -/

structure Params where
  initial_definition : String
  context_keywords : List String
  max_hops : Nat
  lookup : Provider

/-- Steps 8–9 of `Phase1_Parser._is_relevant`: for each context keyword
longer than 3 characters, fetch its definition through the shared cached
client and accept if that definition's lowercased text contains `word`;
lookup failures are skipped. -/
def relevantKwLoop (P : Params) (word : String) (c : ApiClient) :
    List String → Bool × ApiClient
  | [] => (false, c)
  | kw :: kws =>
    if 3 < kw.length then
      match get_definition c P.lookup kw with
      | (some de, c') =>
        if strIn word (lowerStr de.text) then (true, c')
        else relevantKwLoop P word c' kws
      | (none, c') => relevantKwLoop P word c' kws
    else relevantKwLoop P word c kws

/-- `Phase1_Parser._is_relevant`: the layered heuristic, evaluated in
source order with short-circuiting.  Returns the verdict together with the
client (step 8 performs provider calls through the shared client). -/
def is_relevant (P : Params) (c : ApiClient)
    (word definition_text pos : String) : Bool × ApiClient :=
  if word.length ≤ 2 && ¬ (extract_words P.initial_definition).contains word then
    (false, c)
  else if ¬ (pos == "noun" || pos == "verb" || pos == "adjective") then
    (false, c)
  else if P.context_keywords.contains word then
    (true, c)
  else if P.context_keywords.any
      (fun kw => (strIn kw word || strIn word kw) && decide (3 < kw.length)) then
    (true, c)
  else
    let definition_words := extract_words definition_text
    if P.context_keywords.any (fun kw => definition_words.contains kw) then
      (true, c)
    else if P.context_keywords.any
        (fun kw => decide (3 < kw.length) && definition_words.any
          (fun dw => decide (3 < dw.length) && (strIn kw dw || strIn dw kw))) then
      (true, c)
    else if (extract_words P.initial_definition).contains word then
      (true, c)
    else
      relevantKwLoop P word c P.context_keywords

/-- The crawler's full state: the FIFO `(word, hop)` queue, the
`processed_words` set (in insertion order), the graph under construction,
and the shared cached client. -/
structure CrawlState where
  queue : List (String × Nat)
  processed : List String
  graph : SemanticGraph
  client : ApiClient

/-- The accumulator of the inner `for new_word in definition_words` loop
of `build_graph`: the graph, the client, and the entries appended to the
queue so far. -/
structure InnerAcc where
  graph : SemanticGraph
  client : ApiClient
  newQueue : List (String × Nat)

/-- One iteration of the inner loop of `build_graph`, examining one
candidate `new_word` from the definition of the accepted word `word`
dequeued at hop `hop`. -/
def processCandidate (P : Params) (processed : List String) (word : String)
    (hop : Nat) (acc : InnerAcc) (new_word : String) : InnerAcc :=
  if new_word ∈ processed then
    if (acc.graph.get_node new_word).isSome &&
        (acc.graph.get_node word).isSome &&
        ¬ acc.graph.hasEdge word new_word then
      { acc with graph := acc.graph.addEdgeD word new_word }
    else acc
  else
    match get_definition acc.client P.lookup new_word with
    | (none, c') => { acc with client := c' }
    | (some de, c') =>
      if (is_relevant P c' new_word de.text de.pos).1 then
        let g1 :=
          if (acc.graph.get_node new_word).isNone then
            acc.graph.add_node ⟨new_word, de.pos, de.text, []⟩
          else acc.graph
        let g2 :=
          if (g1.get_node word).isSome && (g1.get_node new_word).isSome then
            g1.addEdgeD word new_word
          else g1
        let q :=
          if hop + 1 ≤ P.max_hops then acc.newQueue ++ [(new_word, hop + 1)]
          else acc.newQueue
        ⟨g2, (is_relevant P c' new_word de.text de.pos).2, q⟩
      else
        { acc with client := (is_relevant P c' new_word de.text de.pos).2 }

/-- One iteration of the `while queue` loop of `build_graph`. -/
def crawlStep (P : Params) (s : CrawlState) : CrawlState :=
  match s.queue with
  | [] => s
  | (word, hop) :: rest =>
    if P.max_hops < hop then { s with queue := rest }
    else if word ∈ s.processed then { s with queue := rest }
    else
      let processed := s.processed ++ [word]
      match get_definition s.client P.lookup word with
      | (none, c1) => ⟨rest, processed, s.graph, c1⟩
      | (some de, c1) =>
        if (is_relevant P c1 word de.text de.pos).1 || hop == 0 then
          let g1 :=
            if (s.graph.get_node word).isNone then
              s.graph.add_node ⟨word, de.pos, de.text, []⟩
            else s.graph
          let fin :=
            (extract_words de.text).foldl
              (processCandidate P processed word hop)
              ⟨g1, (is_relevant P c1 word de.text de.pos).2, []⟩
          ⟨rest ++ fin.newQueue, processed, fin.graph, fin.client⟩
        else
          ⟨rest, processed, s.graph, (is_relevant P c1 word de.text de.pos).2⟩

/-- The initial state of `build_graph`: the seed tokens at hop 0, nothing
processed, the empty graph, a fresh client. -/
def crawlInit (P : Params) : CrawlState :=
  ⟨(extract_words P.initial_definition).map (fun w => (w, 0)), [],
   SemanticGraph.empty, ApiClient.init⟩

/-- The candidate words a processed word can contribute: the normalized
tokens of its definition (empty when the lookup fails). -/
def kids (P : Params) (w : String) : List String :=
  match P.lookup w with
  | some de => extract_words de.text
  | none => []

/-- Worker for `entryW`, structurally recursive on the hop budget
`b = max_hops + 1 - h`. -/
def entryWAux (P : Params) : Nat → String → Nat → Nat
  | 0, _, _ => 1
  | b + 1, w, h =>
    if P.max_hops < h then 1
    else 1 + ((kids P w).map (fun w2 => entryWAux P b w2 (h + 1))).sum

/-- A termination weight for a queue entry: an entry beyond the hop bound
weighs 1; otherwise 1 plus the total weight of all its candidate children
one hop further. -/
def entryW (P : Params) (w : String) (h : Nat) : Nat :=
  entryWAux P (P.max_hops + 1 - h) w h

/-- The measure of a crawler state: the total weight of its queue. -/
def crawlMeasure (P : Params) (s : CrawlState) : Nat :=
  (s.queue.map (fun e => entryW P e.1 e.2)).sum

/-- Fuel provably sufficient to drain the queue of `build_graph`. -/
def crawlFuel (P : Params) : Nat := crawlMeasure P (crawlInit P)

/-- `Phase1_Parser.build_graph`: iterate the loop until the queue drains
(the fuel suffices — see the termination theorem) and return the graph. -/
def build_graph (P : Params) : SemanticGraph :=
  ((crawlStep P)^[crawlFuel P] (crawlInit P)).graph

/-- The full final crawl state (graph, processed set, client logs). -/
def crawlFinal (P : Params) : CrawlState :=
  (crawlStep P)^[crawlFuel P] (crawlInit P)

/-! ## Reachability and distance lemmas -/

theorem mem_addIfAbsent {l : List String} {x y : String} :
    y ∈ addIfAbsent l x ↔ y ∈ l ∨ y = x := by
  unfold addIfAbsent
  split
  · rename_i hx
    constructor
    · exact Or.inl
    · rintro (h | rfl)
      · exact h
      · exact hx
  · simp

theorem mem_foldl_addIfAbsent {l acc : List String} {y : String} :
    y ∈ l.foldl addIfAbsent acc ↔ y ∈ acc ∨ y ∈ l := by
  induction l generalizing acc with
  | nil => simp
  | cons v vs ih =>
    simp only [List.foldl_cons]
    rw [ih, mem_addIfAbsent]
    simp [List.mem_cons, or_assoc]

theorem foldl_addIfAbsent_append (acc l : List String) :
    ∃ t, l.foldl addIfAbsent acc = acc ++ t := by
  induction l generalizing acc with
  | nil => exact ⟨[], by simp⟩
  | cons v vs ih =>
    simp only [List.foldl_cons]
    by_cases hv : v ∈ acc
    · rw [show addIfAbsent acc v = acc from if_pos hv]
      exact ih acc
    · rw [show addIfAbsent acc v = acc ++ [v] from if_neg hv]
      obtain ⟨t, ht⟩ := ih (acc ++ [v])
      exact ⟨v :: t, by rw [ht, List.append_assoc]; rfl⟩

theorem nodup_foldl_addIfAbsent {acc l : List String} (h : acc.Nodup) :
    (l.foldl addIfAbsent acc).Nodup := by
  induction l generalizing acc with
  | nil => exact h
  | cons v vs ih =>
    simp only [List.foldl_cons]
    refine ih ?_
    by_cases hv : v ∈ acc
    · rw [show addIfAbsent acc v = acc from if_pos hv]
      exact h
    · rw [show addIfAbsent acc v = acc ++ [v] from if_neg hv]
      simp [List.nodup_append, h, hv]

theorem mem_reachStep {g : SemanticGraph} {cur : List String} {y : String} :
    y ∈ g.reachStep cur ↔ y ∈ cur ∨ ∃ u ∈ cur, y ∈ g.neighborsOf u := by
  unfold SemanticGraph.reachStep
  suffices h : ∀ (us acc : List String),
      y ∈ us.foldl (fun acc u => (g.neighborsOf u).foldl addIfAbsent acc) acc ↔
        y ∈ acc ∨ ∃ u ∈ us, y ∈ g.neighborsOf u from h cur cur
  intro us
  induction us with
  | nil => simp
  | cons u us ih =>
    intro acc
    simp only [List.foldl_cons]
    rw [ih, mem_foldl_addIfAbsent]
    simp [List.mem_cons, exists_eq_or_imp, or_assoc]

theorem reachStep_append (g : SemanticGraph) (cur : List String) :
    ∃ t, g.reachStep cur = cur ++ t := by
  unfold SemanticGraph.reachStep
  suffices h : ∀ (us acc : List String),
      ∃ t, us.foldl (fun acc u => (g.neighborsOf u).foldl addIfAbsent acc) acc =
        acc ++ t from h cur cur
  intro us
  induction us with
  | nil => exact fun acc => ⟨[], by simp⟩
  | cons u us ih =>
    intro acc
    simp only [List.foldl_cons]
    obtain ⟨t1, ht1⟩ := foldl_addIfAbsent_append acc (g.neighborsOf u)
    obtain ⟨t2, ht2⟩ := ih ((g.neighborsOf u).foldl addIfAbsent acc)
    exact ⟨t1 ++ t2, by rw [ht2, ht1, List.append_assoc]⟩

theorem reachStep_nodup {g : SemanticGraph} {cur : List String}
    (h : cur.Nodup) : (g.reachStep cur).Nodup := by
  unfold SemanticGraph.reachStep
  suffices hh : ∀ (us acc : List String), acc.Nodup →
      (us.foldl (fun acc u => (g.neighborsOf u).foldl addIfAbsent acc) acc).Nodup
    from hh cur cur h
  intro us
  induction us with
  | nil => exact fun acc ha => ha
  | cons u us ih =>
    intro acc ha
    simp only [List.foldl_cons]
    exact ih _ (nodup_foldl_addIfAbsent ha)

theorem mem_allEndpoints {g : SemanticGraph} {y : String} :
    y ∈ g.allEndpoints ↔ ∃ e ∈ g.edges, y = e.1 ∨ y = e.2.1 := by
  unfold SemanticGraph.allEndpoints
  induction g.edges with
  | nil => simp
  | cons e es ih =>
    simp only [List.foldr_cons, List.mem_cons, ih]
    constructor
    · rintro (rfl | rfl | ⟨e', he', hy⟩)
      · exact ⟨e, by simp, Or.inl rfl⟩
      · exact ⟨e, by simp, Or.inr rfl⟩
      · exact ⟨e', by simp [he'], hy⟩
    · rintro ⟨e', he', hy⟩
      rcases he' with rfl | he'
      · rcases hy with rfl | rfl
        · exact Or.inl rfl
        · exact Or.inr (Or.inl rfl)
      · exact Or.inr (Or.inr ⟨e', he', hy⟩)

theorem mem_neighborsOf_mem_endpoints {g : SemanticGraph} {u y : String}
    (h : y ∈ g.neighborsOf u) : y ∈ g.allEndpoints := by
  unfold SemanticGraph.neighborsOf at h
  rw [mem_allEndpoints]
  suffices hh : ∀ (es : List (String × String × ℚ)) (acc : List String),
      y ∈ es.foldl
        (fun acc e =>
          if e.1 = u then addIfAbsent acc e.2.1
          else if e.2.1 = u then addIfAbsent acc e.1
          else acc) acc →
      y ∈ acc ∨ ∃ e ∈ es, y = e.1 ∨ y = e.2.1 by
    rcases hh g.edges [] h with h0 | h0
    · simp at h0
    · exact h0
  intro es
  induction es with
  | nil => exact fun acc hy => Or.inl hy
  | cons e es ih =>
    intro acc hy
    simp only [List.foldl_cons] at hy
    rcases ih _ hy with h0 | ⟨e', he', hy'⟩
    · split at h0
      · rcases mem_addIfAbsent.1 h0 with h1 | rfl
        · exact Or.inl h1
        · exact Or.inr ⟨e, by simp, Or.inr rfl⟩
      · split at h0
        · rcases mem_addIfAbsent.1 h0 with h1 | rfl
          · exact Or.inl h1
          · exact Or.inr ⟨e, by simp, Or.inl rfl⟩
        · exact Or.inl h0
    · exact Or.inr ⟨e', by simp [he'], hy'⟩

theorem reachN_nodup (g : SemanticGraph) (a : String) (n : Nat) :
    (g.reachN a n).Nodup := by
  induction n with
  | zero => simp [SemanticGraph.reachN]
  | succ n ih => exact reachStep_nodup ih

theorem mem_reachN_self (g : SemanticGraph) (a : String) (n : Nat) :
    a ∈ g.reachN a n := by
  induction n with
  | zero => simp [SemanticGraph.reachN]
  | succ n ih =>
    show a ∈ g.reachStep (g.reachN a n)
    exact mem_reachStep.2 (Or.inl ih)

theorem reachN_mono_succ (g : SemanticGraph) (a : String) (n : Nat) :
    g.reachN a n ⊆ g.reachN a (n + 1) := by
  intro y hy
  exact mem_reachStep.2 (Or.inl hy)

theorem reachN_mono (g : SemanticGraph) (a : String) {m n : Nat}
    (h : m ≤ n) : g.reachN a m ⊆ g.reachN a n := by
  induction n with
  | zero => cases Nat.le_zero.1 h; exact fun y hy => hy
  | succ n ih =>
    rcases Nat.le_succ_iff.1 h with h' | rfl
    · exact fun y hy => reachN_mono_succ g a n (ih h' hy)
    · exact fun y hy => hy

theorem reachN_subset_cons_endpoints (g : SemanticGraph) (a : String)
    (n : Nat) : g.reachN a n ⊆ a :: g.allEndpoints := by
  induction n with
  | zero =>
    intro y hy
    simp only [SemanticGraph.reachN, List.mem_singleton] at hy
    simp [hy]
  | succ n ih =>
    intro y hy
    rcases mem_reachStep.1 hy with h0 | ⟨u, _, hu⟩
    · exact ih h0
    · exact List.mem_cons_of_mem a (mem_neighborsOf_mem_endpoints hu)

theorem reachN_stab (g : SemanticGraph) (a : String) {k : Nat}
    (h : g.reachN a (k + 1) = g.reachN a k) :
    ∀ m, k ≤ m → g.reachN a m = g.reachN a k := by
  intro m hm
  induction m, hm using Nat.le_induction with
  | base => rfl
  | succ m hm ih => show g.reachStep (g.reachN a m) = _; rw [ih]; exact h

theorem reachN_exists_stab (g : SemanticGraph) (a : String) :
    ∃ k ≤ g.distBound, g.reachN a (k + 1) = g.reachN a k := by
  by_contra hcon
  push_neg at hcon
  have hgrow : ∀ k ≤ g.distBound + 1, k + 1 ≤ (g.reachN a k).length := by
    intro k
    induction k with
    | zero => intro _; simp [SemanticGraph.reachN]
    | succ k ih =>
      intro hk
      have h1 := ih (by omega)
      have hne := hcon k (by omega)
      obtain ⟨t, ht⟩ := reachStep_append g (g.reachN a k)
      rcases t with _ | ⟨x, t⟩
      · exact absurd (by simpa using ht) hne
      · have : (g.reachN a (k + 1)).length = (g.reachN a k).length + (x :: t).length := by
          show (g.reachStep (g.reachN a k)).length = _
          rw [ht, List.length_append]
        simp only [List.length_cons] at this
        omega
  have hbound : (g.reachN a (g.distBound + 1)).length ≤ g.distBound + 1 := by
    have hsub := reachN_subset_cons_endpoints g a (g.distBound + 1)
    have hnd := reachN_nodup g a (g.distBound + 1)
    have := (hnd.subperm hsub).length_le
    simpa [SemanticGraph.distBound] using this
  have := hgrow (g.distBound + 1) (le_refl _)
  omega

theorem reachN_subset_bound (g : SemanticGraph) (a : String) (n : Nat) :
    g.reachN a n ⊆ g.reachN a g.distBound := by
  obtain ⟨k, hk, hstab⟩ := reachN_exists_stab g a
  by_cases hn : n ≤ g.distBound
  · exact reachN_mono g a hn
  · have h1 : g.reachN a n = g.reachN a k := reachN_stab g a hstab n (by omega)
    rw [h1]
    exact reachN_mono g a hk

/-! ## `distSearch` and `distOpt` lemmas -/

theorem distSearch_eq_some {g : SemanticGraph} {a b : String} :
    ∀ {fuel start d}, distSearch g a b start fuel = some d →
      b ∈ g.reachN a d ∧ start ≤ d ∧ d < start + fuel ∧
        ∀ k, start ≤ k → k < d → b ∉ g.reachN a k := by
  intro fuel
  induction fuel with
  | zero => intro start d h; exact absurd h (by simp [distSearch])
  | succ fuel ih =>
    intro start d h
    unfold distSearch at h
    split at h
    · rename_i hm
      cases h
      exact ⟨hm, le_refl _, by omega, fun k hk1 hk2 => absurd hk1 (by omega)⟩
    · rename_i hm
      obtain ⟨h1, h2, h3, h4⟩ := ih h
      refine ⟨h1, by omega, by omega, ?_⟩
      intro k hk1 hk2
      rcases Nat.eq_or_lt_of_le hk1 with rfl | hk'
      · exact hm
      · exact h4 k hk' hk2

theorem distSearch_eq_none {g : SemanticGraph} {a b : String} :
    ∀ {fuel start}, distSearch g a b start fuel = none →
      ∀ k, start ≤ k → k < start + fuel → b ∉ g.reachN a k := by
  intro fuel
  induction fuel with
  | zero => intro start _ k hk1 hk2; omega
  | succ fuel ih =>
    intro start h k hk1 hk2
    unfold distSearch at h
    split at h
    · exact absurd h (by simp)
    · rename_i hm
      rcases Nat.eq_or_lt_of_le hk1 with rfl | hk'
      · exact hm
      · exact ih h k hk' (by omega)

theorem distOpt_spec {g : SemanticGraph} {a b : String} {d : Nat}
    (h : g.distOpt a b = some d) :
    b ∈ g.reachN a d ∧ (∀ k < d, b ∉ g.reachN a k) ∧ d ≤ g.distBound := by
  obtain ⟨h1, _, h3, h4⟩ := distSearch_eq_some h
  exact ⟨h1, fun k hk => h4 k (Nat.zero_le k) hk, by omega⟩

theorem distOpt_of_mem {g : SemanticGraph} {a b : String} {n : Nat}
    (h : b ∈ g.reachN a n) : ∃ d, g.distOpt a b = some d ∧ d ≤ n := by
  rcases hd : g.distOpt a b with _ | d
  · exfalso
    have hnone := distSearch_eq_none hd g.distBound (Nat.zero_le _) (by omega)
    exact hnone (reachN_subset_bound g a n h)
  · obtain ⟨_, hmin, _⟩ := distOpt_spec hd
    refine ⟨d, rfl, ?_⟩
    by_contra hlt
    exact hmin n (by omega) h

theorem distOpt_self (g : SemanticGraph) (a : String) :
    g.distOpt a a = some 0 := by
  unfold SemanticGraph.distOpt distSearch
  simp [SemanticGraph.reachN]

theorem distOpt_eq_zero {g : SemanticGraph} {a b : String}
    (h : g.distOpt a b = some 0) : b = a := by
  have h1 := (distOpt_spec h).1
  simpa [SemanticGraph.reachN] using h1

theorem distOpt_pos {g : SemanticGraph} {a b : String} {d : Nat}
    (h : g.distOpt a b = some d) (hne : b ≠ a) : 1 ≤ d := by
  rcases d with _ | d
  · exact absurd (distOpt_eq_zero h) hne
  · omega

theorem distOpt_neighbor_le {g : SemanticGraph} {a u v : String} {du : Nat}
    (h : g.distOpt a u = some du) (hv : v ∈ g.neighborsOf u) :
    ∃ dv, g.distOpt a v = some dv ∧ dv ≤ du + 1 := by
  have hu := (distOpt_spec h).1
  have hv1 : v ∈ g.reachN a (du + 1) :=
    mem_reachStep.2 (Or.inr ⟨u, hu, hv⟩)
  exact distOpt_of_mem hv1

theorem distOpt_pred {g : SemanticGraph} {a v : String} {d : Nat}
    (h : g.distOpt a v = some (d + 1)) :
    ∃ u, g.distOpt a u = some d ∧ v ∈ g.neighborsOf u := by
  obtain ⟨h1, h2, _⟩ := distOpt_spec h
  rcases mem_reachStep.1 h1 with h0 | ⟨u, hu, hnb⟩
  · exact absurd h0 (h2 d (by omega))
  · obtain ⟨du, hdu, hle⟩ := distOpt_of_mem hu
    obtain ⟨dv, hdv, hvle⟩ := distOpt_neighbor_le hdu hnb
    rw [h] at hdv
    cases hdv
    exact ⟨u, by rwa [show du = d by omega] at hdu, hnb⟩

/-! ## Tokenizer lemmas (towards C9) -/

theorem wordRunsAux_all_word (t : List Char) (l : List Char)
    (acc : List Char) (ht : ∀ c ∈ t, isWordChar c = true) :
    wordRunsAux (t ++ l) acc = wordRunsAux l (t.reverse ++ acc) := by
  induction t generalizing acc with
  | nil => simp
  | cons c t ih =>
    have hc : isWordChar c = true := ht c (by simp)
    simp only [List.cons_append, wordRunsAux, hc, if_true, List.append_eq]
    rw [ih (c :: acc) (fun d hd => ht d (by simp [hd]))]
    simp

theorem isWordChar_space : isWordChar ' ' = false := rfl

theorem wordRuns_append_space (t rest : List Char)
    (ht : ∀ c ∈ t, isWordChar c = true) (hne : t ≠ []) :
    wordRuns (t ++ ' ' :: rest) = String.mk t :: wordRuns rest := by
  unfold wordRuns
  rw [wordRunsAux_all_word t (' ' :: rest) [] ht, List.append_nil]
  rcases htr : t.reverse with _ | ⟨a, as⟩
  · exact absurd (by simpa using htr) hne
  · simp only [wordRunsAux, isWordChar_space, Bool.false_eq_true, if_false]
    have hrr : (a :: as).reverse = t := by rw [← htr, List.reverse_reverse]
    rw [hrr]

theorem wordRuns_all_word (t : List Char)
    (ht : ∀ c ∈ t, isWordChar c = true) (hne : t ≠ []) :
    wordRuns t = [String.mk t] := by
  have h1 : wordRuns t = wordRunsAux ([] : List Char) t.reverse := by
    unfold wordRuns
    rw [show t = t ++ ([] : List Char) from (List.append_nil t).symm,
      wordRunsAux_all_word t [] [] ht]
    simp
  rw [h1]
  rcases htr : t.reverse with _ | ⟨a, as⟩
  · exact absurd (by simpa using htr) hne
  · simp only [wordRunsAux]
    have hrr : (a :: as).reverse = t := by rw [← htr, List.reverse_reverse]
    rw [hrr]

/-- Modelled from the spec: `normalize_as_text` — rejoin a token sequence
with single spaces (Python `" ".join(tokens)`); this is the claim's
construct, not a function of the source. -/
def joinData : List (List Char) → List Char
  | [] => []
  | [t] => t
  | t :: t2 :: ts => t ++ ' ' :: joinData (t2 :: ts)

/-- Modelled from the spec: `normalize_as_text` on strings. -/
def joinTokens (ts : List String) : String :=
  String.mk (joinData (ts.map String.data))

theorem joinData_lower_fixed (L : List (List Char))
    (h : ∀ t ∈ L, t.map Char.toLower = t) :
    (joinData L).map Char.toLower = joinData L := by
  match L with
  | [] => rfl
  | [t] => simpa [joinData] using h t (by simp)
  | t :: t2 :: ts =>
    have ht : t.map Char.toLower = t := h t (by simp)
    have ih := joinData_lower_fixed (t2 :: ts) (fun u hu => h u (by simp_all))
    simp only [joinData, List.map_append, ht, List.map_cons]
    rw [show Char.toLower ' ' = ' ' from rfl, ih]

theorem wordRuns_joinData (ts : List String)
    (h : ∀ t ∈ ts, t.data ≠ [] ∧ ∀ c ∈ t.data, isWordChar c = true) :
    wordRuns (joinData (ts.map String.data)) = ts := by
  match ts with
  | [] => rfl
  | [t] =>
    obtain ⟨hne, hwc⟩ := h t (by simp)
    simp only [List.map_cons, List.map_nil, joinData]
    rw [wordRuns_all_word t.data hwc hne]
  | t :: t2 :: ts =>
    obtain ⟨hne, hwc⟩ := h t (by simp)
    have ih := wordRuns_joinData (t2 :: ts) (fun u hu => h u (by simp_all))
    simp only [List.map_cons, joinData]
    rw [wordRuns_append_space t.data _ hwc hne]
    simp only [List.map_cons] at ih
    rw [ih]

/-- C9: normalization is idempotent — for every sequence of tokens that
are nonempty lowercase word-character runs and are free of stop words
(exactly the tokens `_extract_words` itself produces), re-extracting from
the space-rejoined text returns the same sequence in the same order. -/
theorem C9_normalize_idempotent (ts : List String)
    (h : ∀ t ∈ ts, t.data ≠ [] ∧ (∀ c ∈ t.data, isWordChar c = true) ∧
        t.data.map Char.toLower = t.data ∧ stop_words.contains t = false) :
    extract_words (joinTokens ts) = ts := by
  unfold extract_words joinTokens
  have hlow : (lowerStr (String.mk (joinData (ts.map String.data)))).data =
      joinData (ts.map String.data) := by
    show (joinData (ts.map String.data)).map Char.toLower = _
    exact joinData_lower_fixed _ (by
      intro t ht
      simp only [List.mem_map] at ht
      obtain ⟨u, hu, rfl⟩ := ht
      exact (h u hu).2.2.1)
  rw [hlow, wordRuns_joinData ts (fun t ht => ⟨(h t ht).1, (h t ht).2.1⟩)]
  rw [List.filter_eq_self]
  intro a ha
  simpa using (h a ha).2.2.2

/-- C9 witness: the theorem applied to the token sequence
`["state", "ease"]`. -/
theorem C9_normalize_idempotent_witness :
    extract_words (joinTokens ["state", "ease"]) = ["state", "ease"] :=
  C9_normalize_idempotent ["state", "ease"] (by decide)

/-! ## C3: `find_path` on an empty graph or absent endpoints -/

/-- C3 counterexample: on the empty graph, `find_path` does not return
`none` — it raises (the uncaught `NodeNotFound`), falsifying the claim at
the concrete input `(empty, "a", "b")`. -/
theorem C3_find_path_counterexample :
    SemanticGraph.empty.find_path "a" "b" =
        Except.error "NodeNotFound: source or target is not in G" ∧
      ∀ r : Option (List String),
        SemanticGraph.empty.find_path "a" "b" ≠ Except.ok r := by
  refine ⟨rfl, ?_⟩
  intro r h
  rw [show SemanticGraph.empty.find_path "a" "b" =
      Except.error "NodeNotFound: source or target is not in G" from rfl] at h
  exact Except.noConfusion h

/-- C3 (amended): `find_path` raises `NodeNotFound` exactly when an
endpoint (or the whole graph) is absent; only with both endpoints present
does it return without an exception — a shortest path when the endpoints
are connected, `none` (the caught `NetworkXNoPath`) when they are not. -/
theorem C3_find_path_amended (g : SemanticGraph) (w1 w2 : String) :
    (¬ (g.hasNodeW w1 = true ∧ g.hasNodeW w2 = true) →
      g.find_path w1 w2 =
        Except.error "NodeNotFound: source or target is not in G") ∧
    (g.hasNodeW w1 = true → g.hasNodeW w2 = true →
      (g.distOpt w1 w2 = none → g.find_path w1 w2 = Except.ok none) ∧
      (∀ d, g.distOpt w1 w2 = some d →
        g.find_path w1 w2 = Except.ok (some (g.pathTo w1 w2 d)))) := by
  constructor
  · intro h
    have hb : (g.hasNodeW w1 && g.hasNodeW w2) = false := by
      cases h1 : g.hasNodeW w1 <;> cases h2 : g.hasNodeW w2 <;> simp_all
    simp [SemanticGraph.find_path, hb]
  · intro h1 h2
    constructor
    · intro hd
      simp [SemanticGraph.find_path, h1, h2, hd]
    · intro d hd
      simp [SemanticGraph.find_path, h1, h2, hd]

/-- A two-node edgeless example graph. -/
def exGraphTwo : SemanticGraph :=
  ⟨[⟨"x", "noun", "dx", []⟩, ⟨"y", "noun", "dy", []⟩], []⟩

/-- C3 witness: the amended theorem applied to the empty graph (absent
endpoints, raising branch) and to a two-node disconnected graph (the
`none` branch). -/
theorem C3_find_path_amended_witness :
    SemanticGraph.empty.find_path "a" "b" =
        Except.error "NodeNotFound: source or target is not in G" ∧
      exGraphTwo.find_path "x" "y" = Except.ok none := by
  refine ⟨(C3_find_path_amended SemanticGraph.empty "a" "b").1 (by decide), ?_⟩
  exact ((C3_find_path_amended exGraphTwo "x" "y").2 (by decide) (by decide)).1
    (by decide)

/-! ## Stable-sort lemmas (towards C5 and C10) -/

theorem insertDesc_perm (p : String × ℚ) (l : List (String × ℚ)) :
    (insertDesc p l).Perm (p :: l) := by
  induction l with
  | nil => exact List.Perm.refl _
  | cons q qs ih =>
    by_cases hq : q.2 < p.2
    · simp only [insertDesc, if_pos hq]
      exact List.Perm.refl _
    · simp only [insertDesc, if_neg hq]
      exact (ih.cons q).trans (List.Perm.swap p q qs)

theorem insertDesc_sorted (p : String × ℚ) (l : List (String × ℚ))
    (hl : l.Pairwise (fun x y => y.2 ≤ x.2)) :
    (insertDesc p l).Pairwise (fun x y => y.2 ≤ x.2) := by
  induction l with
  | nil => simp [insertDesc]
  | cons q qs ih =>
    rcases List.pairwise_cons.1 hl with ⟨hq, hqs⟩
    by_cases hcmp : q.2 < p.2
    · simp only [insertDesc, if_pos hcmp]
      refine List.pairwise_cons.2 ⟨?_, hl⟩
      intro b hb
      rcases List.mem_cons.1 hb with rfl | hbqs
      · exact le_of_lt hcmp
      · exact le_trans (hq b hbqs) (le_of_lt hcmp)
    · simp only [insertDesc, if_neg hcmp]
      refine List.pairwise_cons.2 ⟨?_, ih hqs⟩
      intro b hb
      rcases List.mem_cons.1 ((insertDesc_perm p qs).mem_iff.1 hb) with rfl | hbqs
      · exact not_lt.1 hcmp
      · exact hq b hbqs

theorem sortDesc_perm (l : List (String × ℚ)) : (sortDesc l).Perm l := by
  unfold sortDesc
  suffices h : ∀ (l acc : List (String × ℚ)),
      (l.foldl (fun acc p => insertDesc p acc) acc).Perm (acc ++ l) by
    simpa using h l []
  intro l
  induction l with
  | nil => intro acc; simp
  | cons p l ih =>
    intro acc
    simp only [List.foldl_cons]
    refine (ih (insertDesc p acc)).trans ?_
    refine List.Perm.trans (List.Perm.append_right l (insertDesc_perm p acc)) ?_
    exact List.perm_middle.symm

theorem sortDesc_sorted (l : List (String × ℚ)) :
    (sortDesc l).Pairwise (fun x y => y.2 ≤ x.2) := by
  unfold sortDesc
  suffices h : ∀ (l acc : List (String × ℚ)),
      acc.Pairwise (fun x y => y.2 ≤ x.2) →
      (l.foldl (fun acc p => insertDesc p acc) acc).Pairwise
        (fun x y => y.2 ≤ x.2) from h l [] (by simp)
  intro l
  induction l with
  | nil => exact fun acc h => h
  | cons p l ih =>
    intro acc hacc
    simp only [List.foldl_cons]
    exact ih _ (insertDesc_sorted p acc hacc)

theorem insertDesc_filter (p : String × ℚ) (l : List (String × ℚ))
    (hl : l.Pairwise (fun x y => y.2 ≤ x.2)) (k : ℚ) :
    (insertDesc p l).filter (fun x => decide (x.2 = k)) =
      if p.2 = k then l.filter (fun x => decide (x.2 = k)) ++ [p]
      else l.filter (fun x => decide (x.2 = k)) := by
  induction l with
  | nil =>
    by_cases hp : p.2 = k <;> simp [insertDesc, hp]
  | cons q qs ih =>
    rcases List.pairwise_cons.1 hl with ⟨hq, hqs⟩
    by_cases hcmp : q.2 < p.2
    · simp only [insertDesc, if_pos hcmp]
      by_cases hp : p.2 = k
      · have hempty : (q :: qs).filter (fun x => decide (x.2 = k)) = [] := by
          rw [List.filter_eq_nil_iff]
          intro a ha
          have hle : a.2 ≤ q.2 := by
            rcases List.mem_cons.1 ha with rfl | haqs
            · exact le_refl _
            · exact hq a haqs
          simp only [decide_eq_true_eq]
          intro hak
          rw [hak] at hle
          rw [hp] at hcmp
          exact absurd (lt_of_lt_of_le hcmp hle) (lt_irrefl _)
        rw [if_pos hp, hempty, List.filter_cons]
        simp [hp, hempty]
      · rw [if_neg hp, List.filter_cons]
        simp [hp]
    · simp only [insertDesc, if_neg hcmp]
      rw [List.filter_cons, List.filter_cons, ih hqs]
      by_cases hqk : q.2 = k <;> by_cases hp : p.2 = k <;> simp [hqk, hp]

theorem sortDesc_filter (l : List (String × ℚ)) (k : ℚ) :
    (sortDesc l).filter (fun x => decide (x.2 = k)) =
      l.filter (fun x => decide (x.2 = k)) := by
  unfold sortDesc
  suffices h : ∀ (l acc : List (String × ℚ)),
      acc.Pairwise (fun x y => y.2 ≤ x.2) →
      (l.foldl (fun acc p => insertDesc p acc) acc).filter
          (fun x => decide (x.2 = k)) =
        acc.filter (fun x => decide (x.2 = k)) ++
          l.filter (fun x => decide (x.2 = k)) by
    simpa using h l [] (by simp)
  intro l
  induction l with
  | nil => intro acc _; simp
  | cons p l ih =>
    intro acc hacc
    simp only [List.foldl_cons]
    rw [ih _ (insertDesc_sorted p acc hacc),
      insertDesc_filter p acc hacc k, List.filter_cons]
    by_cases hp : p.2 = k <;> simp [hp]

/-! ## Candidate-list characterization (towards C5 and C10) -/

theorem mem_simCandidates {g : SemanticGraph} {word : String}
    {p : String × ℚ} :
    p ∈ simCandidates g word ↔
      p.1 ∈ g.wordList ∧ p.1 ≠ word ∧
        ∃ d, g.distOpt word p.1 = some d ∧ p.2 = 1 / (1 + (d : ℚ)) := by
  unfold simCandidates
  rw [List.mem_filterMap]
  constructor
  · rintro ⟨o, ho, hmap⟩
    rcases List.mem_filter.1 ho with ⟨ho1, ho2⟩
    rcases hdist : g.distOpt word o with _ | d
    · rw [hdist] at hmap
      simp at hmap
    · rw [hdist] at hmap
      simp only [Option.map] at hmap
      cases hmap
      exact ⟨ho1, by simpa using ho2, d, hdist, rfl⟩
  · rintro ⟨h1, h2, d, hd, hs⟩
    refine ⟨p.1, List.mem_filter.2 ⟨h1, by simpa using h2⟩, ?_⟩
    rw [hd]
    obtain ⟨a, b⟩ := p
    simp only at hs
    subst hs
    rfl

/-- The spec's `"A state of ease"` example graph: nodes `state`, `ease`
with one edge. -/
def exGraphSE : SemanticGraph :=
  ⟨[⟨"state", "noun", "d1", []⟩, ⟨"ease", "noun", "d2", []⟩],
   [("state", "ease", 1)]⟩

/-- C10: every similarity score returned by `find_similar_words` lies in
`(0, 1/2]` (the distance between distinct nodes is at least 1, so
`1/(1+d) ≤ 1/2`), and the returned list is sorted in non-increasing score
order. -/
theorem C10_scores_sorted (g : SemanticGraph) (word : String) (top_n : Nat) :
    (∀ p ∈ find_similar_words g word top_n, 0 < p.2 ∧ p.2 ≤ 1 / 2) ∧
    (find_similar_words g word top_n).Pairwise (fun x y => y.2 ≤ x.2) := by
  constructor
  · intro p hp
    unfold find_similar_words at hp
    split at hp
    · simp at hp
    · have hp1 : p ∈ sortDesc (simCandidates g word) :=
        List.mem_of_mem_take hp
      have hp2 : p ∈ simCandidates g word := (sortDesc_perm _).subset hp1
      obtain ⟨_, h2, d, hd, hs⟩ := mem_simCandidates.1 hp2
      have hd1 : 1 ≤ d := distOpt_pos hd h2
      have hdq : (1 : ℚ) ≤ (d : ℚ) := by exact_mod_cast hd1
      constructor
      · rw [hs]
        positivity
      · rw [hs]
        exact one_div_le_one_div_of_le (by norm_num) (by linarith)
  · unfold find_similar_words
    split
    · simp
    · exact List.Pairwise.sublist (List.take_sublist _ _) (sortDesc_sorted _)

/-- C10 witness: the theorem applied to the two-node `state — ease` graph
at the concrete entry returned for `state`. -/
theorem C10_scores_sorted_witness :
    0 < (1 : ℚ) / (1 + ((1 : ℕ) : ℚ)) ∧
      (1 : ℚ) / (1 + ((1 : ℕ) : ℚ)) ≤ 1 / 2 := by
  have h : find_similar_words exGraphSE "state" 5 =
      [("ease", (1 : ℚ) / (1 + ((1 : ℕ) : ℚ)))] := rfl
  exact (C10_scores_sorted exGraphSE "state" 5).1
    ("ease", (1 : ℚ) / (1 + ((1 : ℕ) : ℚ))) (h ▸ List.mem_singleton.2 rfl)

/-- C5: `find_similar_words` returns `[]` for an absent word; every entry
is a node other than the query, whose score is exactly `1/(1+d)` for its
true fewest-hop distance `d` (in particular only reachable nodes appear);
at most `top_n` entries are returned; every excluded candidate scores no
higher than every included one; and an excluded candidate with a score
equal to an included one's comes later in node-insertion order. -/
theorem C5_find_similar_words (g : SemanticGraph) (word : String)
    (top_n : Nat) :
    (g.hasNodeW word = false → find_similar_words g word top_n = []) ∧
    (∀ p ∈ find_similar_words g word top_n,
      p.1 ∈ g.wordList ∧ p.1 ≠ word ∧
        ∃ d, g.distOpt word p.1 = some d ∧
          p.1 ∈ g.reachN word d ∧ (∀ k < d, p.1 ∉ g.reachN word k) ∧
          p.2 = 1 / (1 + (d : ℚ))) ∧
    (find_similar_words g word top_n).length ≤ top_n ∧
    (∀ q ∈ simCandidates g word, q ∉ find_similar_words g word top_n →
      ∀ p ∈ find_similar_words g word top_n, q.2 ≤ p.2) ∧
    (∀ p ∈ find_similar_words g word top_n, ∀ q ∈ simCandidates g word,
      q ∉ find_similar_words g word top_n → q.2 = p.2 →
        [p, q].Sublist (simCandidates g word)) := by
  by_cases hmem : g.hasNodeW word
  case neg =>
    have hres : find_similar_words g word top_n = [] := by
      simp [find_similar_words, hmem]
    refine ⟨fun _ => hres, ?_, ?_, ?_, ?_⟩ <;> rw [hres] <;> simp
  case pos =>
    have hres : find_similar_words g word top_n =
        (sortDesc (simCandidates g word)).take top_n := by
      simp [find_similar_words, hmem]
    have hsplit : sortDesc (simCandidates g word) =
        (sortDesc (simCandidates g word)).take top_n ++
          (sortDesc (simCandidates g word)).drop top_n :=
      (List.take_append_drop _ _).symm
    have hdropmem : ∀ q ∈ simCandidates g word,
        q ∉ find_similar_words g word top_n →
        q ∈ (sortDesc (simCandidates g word)).drop top_n := by
      intro q hq hqnot
      have hq1 : q ∈ sortDesc (simCandidates g word) :=
        (sortDesc_perm _).mem_iff.2 hq
      rw [hsplit] at hq1
      rcases List.mem_append.1 hq1 with h | h
      · exact absurd (hres ▸ h) hqnot
      · exact h
    refine ⟨?_, ?_, ?_, ?_, ?_⟩
    · intro hfalse
      rw [hmem] at hfalse
      exact absurd hfalse (by simp)
    · intro p hp
      rw [hres] at hp
      have hp2 : p ∈ simCandidates g word :=
        (sortDesc_perm _).subset (List.mem_of_mem_take hp)
      obtain ⟨h1, h2, d, hd, hs⟩ := mem_simCandidates.1 hp2
      obtain ⟨hmemd, hmind, _⟩ := distOpt_spec hd
      exact ⟨h1, h2, d, hd, hmemd, fun k hk => hmind k hk, hs⟩
    · rw [hres]
      exact List.length_take_le _ _
    · intro q hq hqnot p hp
      have hqd := hdropmem q hq hqnot
      have hpt : p ∈ (sortDesc (simCandidates g word)).take top_n :=
        hres ▸ hp
      have hpair := sortDesc_sorted (simCandidates g word)
      rw [hsplit] at hpair
      exact (List.pairwise_append.1 hpair).2.2 p hpt q hqd
    · intro p hp q hq hqnot heq
      have hqd := hdropmem q hq hqnot
      have hpt : p ∈ (sortDesc (simCandidates g word)).take top_n :=
        hres ▸ hp
      have hsub1 : [p, q].Sublist (sortDesc (simCandidates g word)) := by
        rw [hsplit]
        exact List.Sublist.append (List.singleton_sublist.2 hpt)
          (List.singleton_sublist.2 hqd)
      have hfilter : [p, q].filter (fun x => decide (x.2 = p.2)) = [p, q] := by
        rw [List.filter_eq_self]
        intro a ha
        rcases List.mem_cons.1 ha with rfl | ha'
        · simp
        · rcases List.mem_cons.1 ha' with rfl | ha''
          · simp [heq]
          · simp at ha''
      have hsub2 := hsub1.filter (fun x => decide (x.2 = p.2))
      rw [hfilter, sortDesc_filter] at hsub2
      exact hsub2.trans (List.filter_sublist _)

/-- C5 witness: the theorem applied on the empty graph (absent word) and
on the `state — ease` example. -/
theorem C5_find_similar_words_witness :
    find_similar_words SemanticGraph.empty "a" 3 = [] ∧
      (find_similar_words exGraphSE "state" 1).length ≤ 1 :=
  ⟨(C5_find_similar_words SemanticGraph.empty "a" 3).1 rfl,
   (C5_find_similar_words exGraphSE "state" 1).2.2.1⟩

/-! ## Crawler invariants: infrastructure -/

theorem foldlInv {α σ : Type _} (f : σ → α → σ) (Inv : σ → Prop) :
    ∀ (l : List α) (init : σ), Inv init →
      (∀ s a, a ∈ l → Inv s → Inv (f s a)) → Inv (l.foldl f init) := by
  intro l
  induction l with
  | nil => exact fun init h _ => h
  | cons a l ih =>
    intro init h hstep
    simp only [List.foldl_cons]
    exact ih _ (hstep init a (by simp) h)
      (fun s b hb hs => hstep s b (by simp [hb]) hs)

theorem hasNodeW_iff (g : SemanticGraph) (w : String) :
    g.hasNodeW w = true ↔ w ∈ g.wordList := by
  simp [SemanticGraph.hasNodeW]

theorem get_node_isSome_iff (g : SemanticGraph) (w : String) :
    (g.get_node w).isSome = true ↔ w ∈ g.wordList := by
  unfold SemanticGraph.get_node SemanticGraph.wordList
  rw [List.find?_isSome]
  simp [List.mem_map, beq_iff_eq]

theorem add_node_wordList (g : SemanticGraph) (n : SemanticNode) :
    (g.add_node n).wordList = g.wordList ∨
      (g.add_node n).wordList = g.wordList ++ [n.word] := by
  unfold SemanticGraph.add_node
  split
  · left
    simp only [SemanticGraph.wordList, List.map_map]
    apply List.map_congr_left
    intro m _
    simp only [Function.comp_apply]
    split
    · rename_i hbeq
      rw [beq_iff_eq] at hbeq
      rw [hbeq]
    · rfl
  · right
    simp [SemanticGraph.wordList]

theorem mem_wordList_add_node {g : SemanticGraph} {n : SemanticNode}
    {w : String} (h : w ∈ g.wordList) : w ∈ (g.add_node n).wordList := by
  rcases add_node_wordList g n with heq | heq <;> rw [heq] <;> simp [h]

theorem add_node_edges (g : SemanticGraph) (n : SemanticNode) :
    (g.add_node n).edges = g.edges := by
  unfold SemanticGraph.add_node
  split <;> rfl

theorem addEdgeD_nodes (g : SemanticGraph) (a b : String) :
    (g.addEdgeD a b).nodes = g.nodes := by
  unfold SemanticGraph.addEdgeD SemanticGraph.add_edge
  by_cases hc : (g.hasNodeW a && g.hasNodeW b) = true
  · rw [if_pos hc]
    by_cases he : g.hasEdge a b = true
    · rw [if_pos he]
    · rw [if_neg he]
  · rw [if_neg hc]

theorem addEdgeD_wordList (g : SemanticGraph) (a b : String) :
    (g.addEdgeD a b).wordList = g.wordList := by
  unfold SemanticGraph.wordList
  rw [addEdgeD_nodes]

theorem mem_edges_addEdgeD {g : SemanticGraph} {a b : String}
    {e : String × String × ℚ} (h : e ∈ (g.addEdgeD a b).edges) :
    e ∈ g.edges ∨
      (e = (a, b, 1) ∧ g.hasNodeW a = true ∧ g.hasNodeW b = true) := by
  unfold SemanticGraph.addEdgeD SemanticGraph.add_edge at h
  by_cases hc : (g.hasNodeW a && g.hasNodeW b) = true
  · rw [if_pos hc] at h
    by_cases he : g.hasEdge a b = true
    · rw [if_pos he] at h
      exact Or.inl h
    · rw [if_neg he] at h
      have h' : e ∈ g.edges ++ [(a, b, 1)] := h
      rcases List.mem_append.1 h' with h1 | h1
      · exact Or.inl h1
      · rw [Bool.and_eq_true] at hc
        exact Or.inr ⟨by simpa using h1, hc.1, hc.2⟩
  · rw [if_neg hc] at h
    exact Or.inl h

/-- Every edge of the graph joins two words that both have nodes. -/
def edgesWF (g : SemanticGraph) : Prop :=
  ∀ e ∈ g.edges, e.1 ∈ g.wordList ∧ e.2.1 ∈ g.wordList

theorem edgesWF_add_node {g : SemanticGraph} {n : SemanticNode}
    (h : edgesWF g) : edgesWF (g.add_node n) := by
  intro e he
  rw [add_node_edges] at he
  obtain ⟨h1, h2⟩ := h e he
  exact ⟨mem_wordList_add_node h1, mem_wordList_add_node h2⟩

theorem edgesWF_addEdgeD {g : SemanticGraph} {a b : String}
    (h : edgesWF g) : edgesWF (g.addEdgeD a b) := by
  intro e he
  rw [addEdgeD_wordList]
  rcases mem_edges_addEdgeD he with h1 | ⟨rfl, ha, hb⟩
  · exact h e h1
  · exact ⟨(hasNodeW_iff g a).1 ha, (hasNodeW_iff g b).1 hb⟩

/-- The graph can change through `processCandidate` in exactly four ways:
unchanged, an edge `(word, new_word)` added, a node for `new_word` added,
or both. -/
theorem processCandidate_graph_shape (P : Params) (processed : List String)
    (word : String) (hop : Nat) (acc : InnerAcc) (new_word : String) :
    (processCandidate P processed word hop acc new_word).graph = acc.graph ∨
    (processCandidate P processed word hop acc new_word).graph =
      acc.graph.addEdgeD word new_word ∨
    (∃ n : SemanticNode, n.word = new_word ∧
      ((processCandidate P processed word hop acc new_word).graph =
          acc.graph.add_node n ∨
        (processCandidate P processed word hop acc new_word).graph =
          (acc.graph.add_node n).addEdgeD word new_word)) := by
  unfold processCandidate
  split
  · split
    · exact Or.inr (Or.inl rfl)
    · exact Or.inl rfl
  · split
    · exact Or.inl rfl
    · rename_i de c' heq
      split
      · dsimp only
        by_cases hg1 : (acc.graph.get_node new_word).isNone = true
        · rw [if_pos hg1]
          by_cases hg2 : (((acc.graph.add_node ⟨new_word, de.pos, de.text,
              []⟩).get_node word).isSome &&
              ((acc.graph.add_node ⟨new_word, de.pos, de.text,
                []⟩).get_node new_word).isSome) = true
          · rw [if_pos hg2]
            exact Or.inr (Or.inr ⟨_, rfl, Or.inr rfl⟩)
          · rw [if_neg hg2]
            exact Or.inr (Or.inr ⟨_, rfl, Or.inl rfl⟩)
        · rw [if_neg hg1]
          by_cases hg2 : ((acc.graph.get_node word).isSome &&
              (acc.graph.get_node new_word).isSome) = true
          · rw [if_pos hg2]
            exact Or.inr (Or.inl rfl)
          · rw [if_neg hg2]
            exact Or.inl rfl
      · exact Or.inl rfl

/-- The inner loop appends at most one queue entry per candidate, always
`(new_word, hop + 1)` and only under the hop bound. -/
theorem processCandidate_newQueue_shape (P : Params) (processed : List String)
    (word : String) (hop : Nat) (acc : InnerAcc) (new_word : String) :
    (processCandidate P processed word hop acc new_word).newQueue =
      acc.newQueue ∨
    ((processCandidate P processed word hop acc new_word).newQueue =
        acc.newQueue ++ [(new_word, hop + 1)] ∧ hop + 1 ≤ P.max_hops) := by
  unfold processCandidate
  split
  · split
    · exact Or.inl rfl
    · exact Or.inl rfl
  · split
    · exact Or.inl rfl
    · split
      · dsimp only
        by_cases hq : hop + 1 ≤ P.max_hops
        · rw [if_pos hq]
          exact Or.inr ⟨rfl, hq⟩
        · rw [if_neg hq]
          exact Or.inl rfl
      · exact Or.inl rfl

/-- The client can change through `processCandidate` only by a
`get_definition` call for `new_word`, possibly followed by the classifier
(whose own calls go through `relevantKwLoop`). -/
theorem processCandidate_client_shape (P : Params) (processed : List String)
    (word : String) (hop : Nat) (acc : InnerAcc) (new_word : String) :
    (processCandidate P processed word hop acc new_word).client = acc.client ∨
    (processCandidate P processed word hop acc new_word).client =
      (get_definition acc.client P.lookup new_word).2 ∨
    (∃ de, (get_definition acc.client P.lookup new_word).1 = some de ∧
      (processCandidate P processed word hop acc new_word).client =
        (is_relevant P (get_definition acc.client P.lookup new_word).2
          new_word de.text de.pos).2) := by
  unfold processCandidate
  split
  · split
    · exact Or.inl rfl
    · exact Or.inl rfl
  · split
    · rename_i c' heq
      refine Or.inr (Or.inl ?_)
      rw [heq]
    · rename_i de c' heq
      have h1 : (get_definition acc.client P.lookup new_word).1 = some de := by
        rw [heq]
      have h2 : (get_definition acc.client P.lookup new_word).2 = c' := by
        rw [heq]
      split
      · exact Or.inr (Or.inr ⟨de, h1, by rw [h2]⟩)
      · exact Or.inr (Or.inr ⟨de, h1, by rw [h2]⟩)

theorem processCandidate_wordList_mono (P : Params) (processed : List String)
    (word : String) (hop : Nat) (acc : InnerAcc) (new_word : String)
    {w : String} (h : w ∈ acc.graph.wordList) :
    w ∈ (processCandidate P processed word hop acc new_word).graph.wordList := by
  rcases processCandidate_graph_shape P processed word hop acc new_word with
    hs | hs | ⟨n, _, hs | hs⟩
  · rw [hs]; exact h
  · rw [hs, addEdgeD_wordList]; exact h
  · rw [hs]; exact mem_wordList_add_node h
  · rw [hs, addEdgeD_wordList]; exact mem_wordList_add_node h

theorem processCandidate_edgesWF (P : Params) (processed : List String)
    (word : String) (hop : Nat) (acc : InnerAcc) (new_word : String)
    (h : edgesWF acc.graph) :
    edgesWF (processCandidate P processed word hop acc new_word).graph := by
  rcases processCandidate_graph_shape P processed word hop acc new_word with
    hs | hs | ⟨n, _, hs | hs⟩
  · rw [hs]; exact h
  · rw [hs]; exact edgesWF_addEdgeD h
  · rw [hs]; exact edgesWF_add_node h
  · rw [hs]; exact edgesWF_addEdgeD (edgesWF_add_node h)

theorem crawlStep_edgesWF (P : Params) (s : CrawlState)
    (h : edgesWF s.graph) : edgesWF (crawlStep P s).graph := by
  rcases hq : s.queue with _ | ⟨⟨word, hop⟩, rest⟩
  · simp only [crawlStep, hq]
    exact h
  · simp only [crawlStep, hq]
    split
    · exact h
    · split
      · exact h
      · split
        · exact h
        · rename_i de c1 heq
          split
          · dsimp only
            refine foldlInv (processCandidate P (s.processed ++ [word]) word hop)
              (fun a : InnerAcc => edgesWF a.graph) (extract_words de.text)
              _ ?_ ?_
            · by_cases hg : (s.graph.get_node word).isNone = true
              · rw [if_pos hg]
                exact edgesWF_add_node h
              · rw [if_neg hg]
                exact h
            · intro a x _ ha
              exact processCandidate_edgesWF _ _ _ _ _ _ ha
          · exact h

theorem crawl_iterate_edgesWF (P : Params) (n : Nat) :
    edgesWF ((crawlStep P)^[n] (crawlInit P)).graph := by
  induction n with
  | zero =>
    intro e he
    simp [crawlInit, SemanticGraph.empty] at he
  | succ n ih =>
    rw [Function.iterate_succ_apply']
    exact crawlStep_edgesWF P _ ih

/-! ## Client invariants (towards C2) -/

theorem get_definition_fst (c : ApiClient) (lookup : Provider) (w : String) :
    (get_definition c lookup w).1 = lookup w := by
  unfold get_definition
  split <;> rfl

/-- The cache never holds duplicates and coincides with the external fetch
log (the run starts from an empty cache file). -/
def clientInv (c : ApiClient) : Prop :=
  c.cache.Nodup ∧ c.fetchLog = c.cache

theorem get_definition_clientInv {c : ApiClient} {lookup : Provider}
    {w : String} (h : clientInv c) :
    clientInv (get_definition c lookup w).2 := by
  rcases h with ⟨h1, h2⟩
  unfold get_definition
  by_cases hw : w ∈ c.cache
  · rw [if_pos hw]
    exact ⟨h1, h2⟩
  · rw [if_neg hw]
    refine ⟨?_, ?_⟩
    · simp [List.nodup_append, h1, hw]
    · show c.fetchLog ++ [w] = c.cache ++ [w]
      rw [h2]

theorem relevantKwLoop_clientInv (P : Params) (word : String) :
    ∀ (kws : List String) (c : ApiClient), clientInv c →
      clientInv (relevantKwLoop P word c kws).2 := by
  intro kws
  induction kws with
  | nil => exact fun c h => h
  | cons kw kws ih =>
    intro c h
    unfold relevantKwLoop
    by_cases hl : 3 < kw.length
    · rw [if_pos hl]
      split
      · rename_i de c' heq
        have hc' : clientInv c' := by
          have hh := @get_definition_clientInv _ P.lookup kw h
          rw [heq] at hh
          exact hh
        split
        · exact hc'
        · exact ih c' hc'
      · rename_i c' heq
        have hc' : clientInv c' := by
          have hh := @get_definition_clientInv _ P.lookup kw h
          rw [heq] at hh
          exact hh
        exact ih c' hc'
    · rw [if_neg hl]
      exact ih c h

theorem is_relevant_clientInv {P : Params} {c : ApiClient}
    {word dt pos : String} (h : clientInv c) :
    clientInv (is_relevant P c word dt pos).2 := by
  unfold is_relevant
  split
  · exact h
  · split
    · exact h
    · split
      · exact h
      · split
        · exact h
        · dsimp only
          split
          · exact h
          · split
            · exact h
            · split
              · exact h
              · exact relevantKwLoop_clientInv P word P.context_keywords c h

theorem processCandidate_clientInv (P : Params) (processed : List String)
    (word : String) (hop : Nat) (acc : InnerAcc) (new_word : String)
    (h : clientInv acc.client) :
    clientInv (processCandidate P processed word hop acc new_word).client := by
  rcases processCandidate_client_shape P processed word hop acc new_word with
    hs | hs | ⟨de, _, hs⟩
  · rw [hs]; exact h
  · rw [hs]; exact get_definition_clientInv h
  · rw [hs]; exact is_relevant_clientInv (get_definition_clientInv h)

theorem crawlStep_clientInv (P : Params) (s : CrawlState)
    (h : clientInv s.client) : clientInv (crawlStep P s).client := by
  rcases hq : s.queue with _ | ⟨⟨word, hop⟩, rest⟩
  · simp only [crawlStep, hq]
    exact h
  · simp only [crawlStep, hq]
    split
    · exact h
    · split
      · exact h
      · split
        · rename_i c1 heq
          have hc1 : clientInv c1 := by
            have hh := @get_definition_clientInv _ P.lookup word h
            rw [heq] at hh
            exact hh
          exact hc1
        · rename_i de c1 heq
          have hc1 : clientInv c1 := by
            have hh := @get_definition_clientInv _ P.lookup word h
            rw [heq] at hh
            exact hh
          split
          · dsimp only
            refine foldlInv (processCandidate P (s.processed ++ [word]) word hop)
              (fun a : InnerAcc => clientInv a.client) (extract_words de.text)
              _ ?_ ?_
            · exact is_relevant_clientInv hc1
            · intro a x _ ha
              exact processCandidate_clientInv _ _ _ _ _ _ ha
          · exact is_relevant_clientInv hc1

theorem crawlStep_processed_grow (P : Params) (s : CrawlState) :
    ∃ t, (crawlStep P s).processed = s.processed ++ t := by
  rcases hq : s.queue with _ | ⟨⟨word, hop⟩, rest⟩
  · simp only [crawlStep, hq]
    exact ⟨[], by simp⟩
  · simp only [crawlStep, hq]
    split
    · exact ⟨[], by simp⟩
    · split
      · exact ⟨[], by simp⟩
      · split
        · exact ⟨[word], rfl⟩
        · split
          · exact ⟨[word], rfl⟩
          · exact ⟨[word], rfl⟩

theorem crawl_iterate_clientInv (P : Params) (n : Nat) :
    clientInv ((crawlStep P)^[n] (crawlInit P)).client := by
  induction n with
  | zero => exact ⟨List.nodup_nil, rfl⟩
  | succ n ih =>
    rw [Function.iterate_succ_apply']
    exact crawlStep_clientInv P _ ih

/-- C2 (amended): across every crawl iteration the ProcessedSet only ever
grows (each state's processed list is a prefix of the next state's), and
the external fetch log never repeats a word — the provider's
`get_definition` method may be invoked several times for one word, but
thanks to the cache (negative results included) the external fetch happens
at most once per distinct word. -/
theorem C2_processed_grows_fetch_once (P : Params) (n : Nat) :
    (∃ t, ((crawlStep P)^[n + 1] (crawlInit P)).processed =
        ((crawlStep P)^[n] (crawlInit P)).processed ++ t) ∧
    ((crawlStep P)^[n] (crawlInit P)).client.fetchLog.Nodup := by
  constructor
  · rw [Function.iterate_succ_apply']
    exact crawlStep_processed_grow P _
  · have hinv := crawl_iterate_clientInv P n
    rw [hinv.2]
    exact hinv.1

/-- The `cat` / `feline` provider: `cat`'s definition is `feline`, whose
definition is `cat`. -/
def P2ex : Params :=
  { initial_definition := "cat"
    context_keywords := ["feline"]
    max_hops := 1
    lookup := fun w =>
      if w = "cat" then some ⟨"noun", "feline"⟩
      else if w = "feline" then some ⟨"noun", "cat"⟩
      else none }

/-- C2 counterexample: in the `cat`/`feline` run the provider's lookup is
invoked twice for `feline` (once from the inner candidate loop, once when
`feline` is dequeued), falsifying "the lookup is invoked at most once per
distinct word"; the external fetch log still holds it only once. -/
theorem C2_lookup_twice_counterexample :
    (crawlFinal P2ex).client.callLog.count "feline" = 2 ∧
      (crawlFinal P2ex).client.fetchLog.count "feline" = 1 ∧
      (crawlFinal P2ex).queue = [] := by
  refine ⟨?_, ?_, ?_⟩ <;> decide

/-! ## C7: the `add_edge` guard and the crawler's discipline -/

def exParams : Params := ⟨"", [], 0, fun _ => none⟩

/-- C7: `add_edge` succeeds exactly when both endpoints already have
nodes (otherwise it raises the spec's `InvalidEdgeError`); on success the
edge is present afterwards; and every graph state reachable through the
crawler keeps every edge's endpoints backed by nodes, so the crawler's own
(guarded) calls never trigger the error branch. -/
theorem C7_add_edge_guard (P : Params) :
    (∀ (g : SemanticGraph) (w1 w2 : String) (wt : ℚ),
      (∃ g', g.add_edge w1 w2 wt = Except.ok g') ↔
        w1 ∈ g.wordList ∧ w2 ∈ g.wordList) ∧
    (∀ (g : SemanticGraph) (w1 w2 : String) (wt : ℚ),
      w1 ∈ g.wordList → w2 ∈ g.wordList →
        ∃ g', g.add_edge w1 w2 wt = Except.ok g' ∧
          g'.hasEdge w1 w2 = true) ∧
    (∀ n, edgesWF ((crawlStep P)^[n] (crawlInit P)).graph) := by
  refine ⟨?_, ?_, crawl_iterate_edgesWF P⟩
  · intro g w1 w2 wt
    constructor
    · rintro ⟨g', hg'⟩
      unfold SemanticGraph.add_edge at hg'
      by_cases hc : (g.hasNodeW w1 && g.hasNodeW w2) = true
      · rw [Bool.and_eq_true] at hc
        exact ⟨(hasNodeW_iff g w1).1 hc.1, (hasNodeW_iff g w2).1 hc.2⟩
      · rw [if_neg hc] at hg'
        exact absurd hg' (by simp)
    · rintro ⟨h1, h2⟩
      have hc : (g.hasNodeW w1 && g.hasNodeW w2) = true := by
        rw [Bool.and_eq_true]
        exact ⟨(hasNodeW_iff g w1).2 h1, (hasNodeW_iff g w2).2 h2⟩
      exact ⟨_, by unfold SemanticGraph.add_edge; rw [if_pos hc]⟩
  · intro g w1 w2 wt h1 h2
    have hc : (g.hasNodeW w1 && g.hasNodeW w2) = true := by
      rw [Bool.and_eq_true]
      exact ⟨(hasNodeW_iff g w1).2 h1, (hasNodeW_iff g w2).2 h2⟩
    refine ⟨if g.hasEdge w1 w2 then g
        else { g with edges := g.edges ++ [(w1, w2, wt)] }, ?_, ?_⟩
    · unfold SemanticGraph.add_edge
      rw [if_pos hc]
    · by_cases he : g.hasEdge w1 w2 = true
      · rw [if_pos he]
        exact he
      · rw [if_neg he]
        simp [SemanticGraph.hasEdge]

/-- C7 witness: the success branch applied to the two-node graph. -/
theorem C7_add_edge_guard_witness :
    ∃ g', exGraphTwo.add_edge "x" "y" 1 = Except.ok g' ∧
      g'.hasEdge "x" "y" = true :=
  (C7_add_edge_guard exParams).2.1 exGraphTwo "x" "y" 1 (by decide) (by decide)

/-! ## C4: hop-0 unconditional acceptance vs. rejection pruning -/

theorem self_mem_wordList_add_node (g : SemanticGraph) (n : SemanticNode) :
    n.word ∈ (g.add_node n).wordList := by
  by_cases hany : g.nodes.any (fun m => m.word == n.word) = true
  · have hmem : n.word ∈ g.wordList := by
      rw [List.any_eq_true] at hany
      obtain ⟨m, hm, hbeq⟩ := hany
      rw [beq_iff_eq] at hbeq
      exact hbeq ▸ List.mem_map.2 ⟨m, hm, rfl⟩
    exact mem_wordList_add_node hmem
  · unfold SemanticGraph.add_node
    rw [if_neg hany]
    simp [SemanticGraph.wordList]

/-- C4: a fresh word dequeued at hop 0 whose lookup succeeds gets a node
regardless of the classifier's verdict; a fresh word dequeued at a
positive hop within the bound whose lookup succeeds but which the
classifier rejects leaves the graph untouched and contributes no queue
entries — its definition is not scanned. -/
theorem C4_hop0_vs_rejected (P : Params) (s : CrawlState) :
    (∀ w rest de, s.queue = (w, 0) :: rest → w ∉ s.processed →
      P.lookup w = some de →
      ((crawlStep P s).graph.get_node w).isSome = true) ∧
    (∀ w h rest de, s.queue = (w, h) :: rest → 0 < h → h ≤ P.max_hops →
      w ∉ s.processed → P.lookup w = some de →
      (is_relevant P (get_definition s.client P.lookup w).2 w de.text
        de.pos).1 = false →
      (crawlStep P s).graph = s.graph ∧ (crawlStep P s).queue = rest ∧
        (crawlStep P s).processed = s.processed ++ [w]) := by
  have hpair : ∀ w de, P.lookup w = some de →
      get_definition s.client P.lookup w =
        (some de, (get_definition s.client P.lookup w).2) := by
    intro w de hl
    have hfst : (get_definition s.client P.lookup w).1 = some de := by
      rw [get_definition_fst]
      exact hl
    calc get_definition s.client P.lookup w =
        ((get_definition s.client P.lookup w).1,
          (get_definition s.client P.lookup w).2) := rfl
      _ = (some de, (get_definition s.client P.lookup w).2) := by rw [hfst]
  constructor
  · intro w rest de hq hnp hl
    simp only [crawlStep, hq]
    rw [if_neg (by omega : ¬ P.max_hops < 0)]
    rw [if_neg hnp]
    rw [hpair w de hl]
    dsimp only
    rw [if_pos (by simp :
      ((is_relevant P (get_definition s.client P.lookup w).2 w de.text
        de.pos).1 || (0 == 0)) = true)]
    dsimp only
    rw [get_node_isSome_iff]
    refine foldlInv (processCandidate P (s.processed ++ [w]) w 0)
      (fun a : InnerAcc => w ∈ a.graph.wordList) (extract_words de.text)
      _ ?_ ?_
    · by_cases hg : (s.graph.get_node w).isNone = true
      · rw [if_pos hg]
        exact self_mem_wordList_add_node s.graph _
      · rw [if_neg hg]
        have hs2 : (s.graph.get_node w).isSome = true := by
          rcases ho : s.graph.get_node w with _ | _
          · rw [ho] at hg
            simp at hg
          · simp
        exact (get_node_isSome_iff _ _).1 hs2
    · intro a x _ ha
      exact processCandidate_wordList_mono _ _ _ _ _ _ ha
  · intro w h rest de hq h0 hmax hnp hl hrel
    simp only [crawlStep, hq]
    rw [if_neg (by omega : ¬ P.max_hops < h)]
    rw [if_neg hnp]
    rw [hpair w de hl]
    dsimp only
    have hcond : ¬ (((is_relevant P (get_definition s.client P.lookup w).2
        w de.text de.pos).1 || (h == 0)) = true) := by
      rw [hrel]
      simp
      omega
    rw [if_neg hcond]
    exact ⟨rfl, rfl, rfl⟩

/-- The `pronoun` example provider of the spec's scenario. -/
def P4ex : Params :=
  ⟨"he", [], 1, fun w => if w = "he" then some ⟨"pronoun", "person"⟩
    else none⟩

/-- C4 witness: the theorem applied to the `pronoun` example, at hop 0
(node created) and at hop 1 (rejected, graph untouched). -/
theorem C4_hop0_vs_rejected_witness :
    ((crawlStep P4ex ⟨[("he", 0)], [], SemanticGraph.empty,
      ApiClient.init⟩).graph.get_node "he").isSome = true ∧
    (crawlStep P4ex ⟨[("he", 1)], [], SemanticGraph.empty,
      ApiClient.init⟩).graph = SemanticGraph.empty :=
  ⟨(C4_hop0_vs_rejected P4ex _).1 "he" [] ⟨"pronoun", "person"⟩ rfl
      (by decide) rfl,
   ((C4_hop0_vs_rejected P4ex _).2 "he" 1 [] ⟨"pronoun", "person"⟩ rfl
      (by decide) (by decide) (by decide) rfl (by decide)).1⟩

/-! ## C1: self-loops -/

/-- No edge of the graph joins a word to itself. -/
def noSelfLoop (g : SemanticGraph) : Prop := ∀ e ∈ g.edges, e.1 ≠ e.2.1

theorem processCandidate_noSelfLoop (P : Params) (processed : List String)
    (word : String) (hop : Nat) (acc : InnerAcc) (new_word : String)
    (hneq : word ≠ new_word) (h : noSelfLoop acc.graph) :
    noSelfLoop (processCandidate P processed word hop acc new_word).graph := by
  rcases processCandidate_graph_shape P processed word hop acc new_word with
    hs | hs | ⟨n, _, hs | hs⟩
  · rw [hs]
    exact h
  · rw [hs]
    intro e he
    rcases mem_edges_addEdgeD he with h1 | ⟨rfl, _, _⟩
    · exact h e h1
    · exact hneq
  · rw [hs]
    intro e he
    rw [add_node_edges] at he
    exact h e he
  · rw [hs]
    intro e he
    rcases mem_edges_addEdgeD he with h1 | ⟨rfl, _, _⟩
    · rw [add_node_edges] at h1
      exact h e h1
    · exact hneq

theorem crawlStep_noSelfLoop (P : Params) (s : CrawlState)
    (hP : ∀ w de, P.lookup w = some de → w ∉ extract_words de.text)
    (h : noSelfLoop s.graph) : noSelfLoop (crawlStep P s).graph := by
  rcases hq : s.queue with _ | ⟨⟨word, hop⟩, rest⟩
  · simp only [crawlStep, hq]
    exact h
  · simp only [crawlStep, hq]
    split
    · exact h
    · split
      · exact h
      · split
        · exact h
        · rename_i de c1 heq
          have hde : P.lookup word = some de := by
            rw [← get_definition_fst s.client P.lookup word, heq]
          have hword : word ∉ extract_words de.text := hP word de hde
          split
          · dsimp only
            refine foldlInv (processCandidate P (s.processed ++ [word]) word hop)
              (fun a : InnerAcc => noSelfLoop a.graph) (extract_words de.text)
              _ ?_ ?_
            · by_cases hg : (s.graph.get_node word).isNone = true
              · rw [if_pos hg]
                intro e he
                rw [add_node_edges] at he
                exact h e he
              · rw [if_neg hg]
                exact h
            · intro a x hx ha
              exact processCandidate_noSelfLoop _ _ _ _ _ _
                (fun hwx => hword (hwx ▸ hx)) ha
          · exact h

/-- C1 (amended): the crawler's graph contains no self-loop provided no
definition text contains its own headword after normalization; when an
accepted word's definition does contain the word itself, the inner loop's
processed-branch adds the self-loop `(w, w)` (see the counterexample). -/
theorem C1_no_self_loop_amended (P : Params)
    (hP : ∀ w de, P.lookup w = some de → w ∉ extract_words de.text)
    (n : Nat) :
    ∀ e ∈ ((crawlStep P)^[n] (crawlInit P)).graph.edges, e.1 ≠ e.2.1 := by
  induction n with
  | zero =>
    intro e he
    simp [crawlInit, SemanticGraph.empty] at he
  | succ n ih =>
    rw [Function.iterate_succ_apply']
    exact crawlStep_noSelfLoop P _ hP ih

/-- The self-defining provider: the definition of `state` is the single
word `state`. -/
def P1ex : Params :=
  ⟨"state", [], 0, fun w => if w = "state" then some ⟨"noun", "state"⟩
    else none⟩

/-- C1 counterexample: with the self-defining provider the final graph of
`build_graph` contains the self-loop `(state, state)` — an edge joining a
word to itself — falsifying the claim as stated. -/
theorem C1_self_loop_counterexample :
    ("state", "state", (1 : ℚ)) ∈ (build_graph P1ex).edges ∧
      (crawlFinal P1ex).queue = [] := by
  have hedges : (build_graph P1ex).edges = [("state", "state", (1 : ℚ))] := rfl
  exact ⟨hedges ▸ List.mem_singleton.2 rfl, by decide⟩

/-- C1 witness: the amended theorem applied to the `cat`/`feline`
provider, whose definitions never contain their own headword; the edge
`(cat, feline)` of the resulting graph indeed joins two distinct words. -/
theorem C1_no_self_loop_amended_witness : ("cat" : String) ≠ "feline" := by
  have hP : ∀ w de, P2ex.lookup w = some de → w ∉ extract_words de.text := by
    intro w de hl
    by_cases h1 : w = "cat"
    · subst h1
      have : de = ⟨"noun", "feline"⟩ := by
        rw [show P2ex.lookup "cat" = some ⟨"noun", "feline"⟩ from rfl] at hl
        exact (Option.some_injective _ hl).symm
      rw [this]
      decide
    · by_cases h2 : w = "feline"
      · subst h2
        have : de = ⟨"noun", "cat"⟩ := by
          rw [show P2ex.lookup "feline" = some ⟨"noun", "cat"⟩ from rfl] at hl
          exact (Option.some_injective _ hl).symm
        rw [this]
        decide
      · have hnone : P2ex.lookup w = none := by
          simp [P2ex, h1, h2]
        rw [hnone] at hl
        exact absurd hl (by simp)
  have hedges : ((crawlStep P2ex)^[crawlFuel P2ex]
      (crawlInit P2ex)).graph.edges = [("cat", "feline", (1 : ℚ))] := rfl
  exact C1_no_self_loop_amended P2ex hP (crawlFuel P2ex)
    ("cat", "feline", (1 : ℚ)) (hedges ▸ List.mem_singleton.2 rfl)

/-! ## C8: termination of `build_graph` -/

theorem entryW_pos (P : Params) (w : String) (h : Nat) :
    1 ≤ entryW P w h := by
  unfold entryW
  rcases hb : P.max_hops + 1 - h with _ | b
  · simp [entryWAux]
  · unfold entryWAux
    split
    · exact le_refl _
    · omega

theorem entryW_skip (P : Params) (w : String) (h : Nat)
    (hh : P.max_hops < h) : entryW P w h = 1 := by
  unfold entryW
  rw [show P.max_hops + 1 - h = 0 from by omega]
  rfl

theorem entryW_unfold (P : Params) (w : String) (h : Nat)
    (hh : h ≤ P.max_hops) :
    entryW P w h =
      1 + ((kids P w).map (fun w2 => entryW P w2 (h + 1))).sum := by
  unfold entryW
  rw [show P.max_hops + 1 - h = (P.max_hops - h) + 1 from by omega]
  have h2 : ∀ w2 : String,
      entryWAux P (P.max_hops + 1 - (h + 1)) w2 (h + 1) =
        entryWAux P (P.max_hops - h) w2 (h + 1) := by
    intro w2
    rw [show P.max_hops + 1 - (h + 1) = P.max_hops - h from by omega]
  simp only [entryWAux, if_neg (not_lt.2 hh), h2]

theorem foldl_newQueue_sum (P : Params) (processed : List String)
    (word : String) (hop : Nat) (l : List String) (acc : InnerAcc) :
    (((l.foldl (processCandidate P processed word hop) acc).newQueue).map
        (fun e => entryW P e.1 e.2)).sum ≤
      (acc.newQueue.map (fun e => entryW P e.1 e.2)).sum +
        (l.map (fun w2 => entryW P w2 (hop + 1))).sum := by
  induction l generalizing acc with
  | nil => simp
  | cons x l ih =>
    simp only [List.foldl_cons, List.map_cons, List.sum_cons]
    refine le_trans (ih (processCandidate P processed word hop acc x)) ?_
    rcases processCandidate_newQueue_shape P processed word hop acc x with
      hs | ⟨hs, _⟩
    · rw [hs]
      omega
    · rw [hs]
      simp only [List.map_append, List.sum_append, List.map_cons,
        List.sum_cons, List.map_nil, List.sum_nil]
      omega

theorem crawlStep_nil (P : Params) (s : CrawlState) (h : s.queue = []) :
    crawlStep P s = s := by
  simp only [crawlStep, h]

theorem crawlStep_measure_lt (P : Params) (s : CrawlState)
    (hne : s.queue ≠ []) :
    crawlMeasure P (crawlStep P s) < crawlMeasure P s := by
  rcases hq : s.queue with _ | ⟨⟨word, hop⟩, rest⟩
  · exact absurd hq hne
  · have hpos := entryW_pos P word hop
    simp only [crawlStep, hq]
    split
    · unfold crawlMeasure
      dsimp only
      rw [hq]
      simp only [List.map_cons, List.sum_cons]
      omega
    · split
      · unfold crawlMeasure
        dsimp only
        rw [hq]
        simp only [List.map_cons, List.sum_cons]
        omega
      · split
        · unfold crawlMeasure
          dsimp only
          rw [hq]
          simp only [List.map_cons, List.sum_cons]
          omega
        · rename_i de c1 heq
          split
          · rename_i hacc
            have hde : P.lookup word = some de := by
              rw [← get_definition_fst s.client P.lookup word, heq]
            have hhop : hop ≤ P.max_hops := by
              rename_i hnlt _ _
              omega
            have hkids : kids P word = extract_words de.text := by
              unfold kids
              rw [hde]
            have hW := entryW_unfold P word hop hhop
            rw [hkids] at hW
            have hsum := foldl_newQueue_sum P (s.processed ++ [word]) word hop
              (extract_words de.text)
              ⟨if (s.graph.get_node word).isNone = true then
                  s.graph.add_node ⟨word, de.pos, de.text, []⟩
                else s.graph,
               (is_relevant P c1 word de.text de.pos).2, []⟩
            simp only [List.map_nil, List.sum_nil, Nat.zero_add] at hsum
            unfold crawlMeasure
            dsimp only
            rw [hq]
            simp only [List.map_cons, List.sum_cons, List.map_append,
              List.sum_append]
            omega
          · unfold crawlMeasure
            dsimp only
            rw [hq]
            simp only [List.map_cons, List.sum_cons]
            omega

theorem crawl_drain (P : Params) :
    ∀ (n : Nat) (s : CrawlState), crawlMeasure P s ≤ n →
      ((crawlStep P)^[n] s).queue = [] := by
  intro n
  induction n with
  | zero =>
    intro s h
    rcases hq : s.queue with _ | ⟨⟨w, d⟩, rest⟩
    · simpa using hq
    · exfalso
      have h1 := entryW_pos P w d
      have hm : crawlMeasure P s =
          entryW P w d + (rest.map (fun e => entryW P e.1 e.2)).sum := by
        unfold crawlMeasure
        rw [hq]
        simp
      omega
  | succ n ih =>
    intro s h
    rcases hq : s.queue with _ | _
    · rw [Function.iterate_succ_apply, crawlStep_nil P s hq]
      refine ih s ?_
      unfold crawlMeasure
      rw [hq]
      simp
    · have hlt := crawlStep_measure_lt P s (by rw [hq]; simp)
      rw [Function.iterate_succ_apply]
      exact ih _ (by omega)

/-- C8: for every hop bound and every provider, `build_graph` terminates —
after `crawlFuel` iterations of the loop the BFS queue is empty (each
iteration strictly decreases the finite `crawlMeasure`, and dequeued
processed words are never re-expanded). -/
theorem C8_build_graph_terminates (P : Params) :
    ((crawlStep P)^[crawlFuel P] (crawlInit P)).queue = [] :=
  crawl_drain P (crawlFuel P) (crawlInit P) (le_refl _)

/-! ## C6: the `get_semantic_neighborhood` BFS -/

/-- Complete characterization of the inner mark-and-enqueue loop: the new
visitees `nw` are exactly the first occurrences of unvisited neighbors, in
order, each enqueued at distance `nd`. -/
theorem gsnPush_spec (nd : Nat) :
    ∀ (vs vis : List String) (q : List (String × Nat)),
      ∃ nw : List String,
        gsnPush nd (vis, q) vs = (vis ++ nw, q ++ nw.map (fun v => (v, nd))) ∧
        (∀ v ∈ nw, v ∈ vs ∧ v ∉ vis) ∧
        (∀ v ∈ vs, v ∈ vis ++ nw) ∧
        nw.Nodup := by
  intro vs
  induction vs with
  | nil =>
    intro vis q
    exact ⟨[], by simp [gsnPush], by simp, by simp, by simp⟩
  | cons v vs ih =>
    intro vis q
    by_cases hv : v ∈ vis
    · obtain ⟨nw, h1, h2, h3, h4⟩ := ih vis q
      refine ⟨nw, ?_, ?_, ?_, h4⟩
      · simp only [gsnPush, if_pos hv]
        exact h1
      · intro u hu
        obtain ⟨hu1, hu2⟩ := h2 u hu
        exact ⟨List.mem_cons_of_mem v hu1, hu2⟩
      · intro u hu
        rcases List.mem_cons.1 hu with rfl | hu'
        · exact List.mem_append.2 (Or.inl hv)
        · exact h3 u hu'
    · obtain ⟨nw, h1, h2, h3, h4⟩ := ih (vis ++ [v]) (q ++ [(v, nd)])
      refine ⟨v :: nw, ?_, ?_, ?_, ?_⟩
      · simp only [gsnPush, if_neg hv]
        rw [h1]
        simp
      · intro u hu
        rcases List.mem_cons.1 hu with rfl | hu'
        · exact ⟨by simp, hv⟩
        · obtain ⟨hu1, hu2⟩ := h2 u hu'
          refine ⟨by simp [hu1], fun hin => hu2 (by simp [hin])⟩
      · intro u hu
        rcases List.mem_cons.1 hu with rfl | hu'
        · simp
        · have h5 := h3 u hu'
          simp only [List.mem_append, List.mem_singleton, List.mem_cons]
            at h5 ⊢
          tauto
      · refine List.nodup_cons.2 ⟨?_, h4⟩
        intro hv2
        exact (h2 v hv2).2 (by simp)

theorem filter_not_mem_length (E : List String) :
    ∀ (nw vis : List String), nw.Nodup →
      (∀ v ∈ nw, v ∈ E ∧ v ∉ vis) →
      (E.filter (fun v => ¬ v ∈ (vis ++ nw))).length + nw.length ≤
        (E.filter (fun v => ¬ v ∈ vis)).length := by
  intro nw
  induction nw with
  | nil =>
    intro vis _ _
    simp
  | cons v nw ih =>
    intro vis hnd hmem
    have hv := hmem v (by simp)
    have step1 : (E.filter (fun u => ¬ u ∈ (vis ++ [v]))).length + 1 ≤
        (E.filter (fun u => ¬ u ∈ vis)).length := by
      have hsub : E.filter (fun u => ¬ u ∈ (vis ++ [v])) =
          (E.filter (fun u => ¬ u ∈ vis)).filter (fun u => ¬ u = v) := by
        rw [List.filter_filter]
        apply List.filter_congr
        intro u _
        by_cases h1 : u ∈ vis <;> by_cases h2 : u = v <;> simp [h1, h2]
      have hvmem : v ∈ E.filter (fun u => ¬ u ∈ vis) := by
        rw [List.mem_filter]
        refine ⟨hv.1, by simpa using hv.2⟩
      have hlt : ((E.filter (fun u => ¬ u ∈ vis)).filter
          (fun u => ¬ u = v)).length <
          (E.filter (fun u => ¬ u ∈ vis)).length := by
        rw [List.length_filter_lt_length_iff_exists]
        exact ⟨v, hvmem, by simp⟩
      rw [hsub]
      omega
    have ihs := ih (vis ++ [v]) (List.nodup_cons.1 hnd).2 ?_
    · rw [List.append_assoc] at ihs
      simp only [List.singleton_append] at ihs
      simp only [List.length_cons]
      omega
    · intro u hu
      obtain ⟨hu1, hu2⟩ := hmem u (by simp [hu])
      refine ⟨hu1, ?_⟩
      simp only [List.mem_append, List.mem_singleton]
      rintro (h | rfl)
      · exact hu2 h
      · exact (List.nodup_cons.1 hnd).1 hu

theorem gsnStep_nil (g : SemanticGraph) (radius : Nat) (s : GsnState)
    (h : s.queue = []) : gsnStep g radius s = s := by
  simp only [gsnStep, h]

theorem gsnStep_measure_lt (g : SemanticGraph) (radius : Nat) (s : GsnState)
    (hne : s.queue ≠ []) :
    gsnMeasure g (gsnStep g radius s) < gsnMeasure g s := by
  rcases hq : s.queue with _ | ⟨⟨w0, d0⟩, qrest⟩
  · exact absurd hq hne
  · simp only [gsnStep, hq]
    by_cases hd : d0 < radius
    · rw [if_pos hd]
      obtain ⟨nw, h1, h2, _, h4⟩ :=
        gsnPush_spec (d0 + 1) (g.neighborsOf w0) s.visited qrest
      rw [h1]
      have hlen := filter_not_mem_length g.allEndpoints nw s.visited h4
        (fun v hv => ⟨mem_neighborsOf_mem_endpoints (h2 v hv).1, (h2 v hv).2⟩)
      unfold gsnMeasure
      dsimp only
      rw [hq]
      simp only [List.length_append, List.length_cons, List.length_map]
      omega
    · rw [if_neg hd]
      unfold gsnMeasure
      dsimp only
      rw [hq]
      simp only [List.length_cons]
      omega

theorem gsn_iterate_fix (g : SemanticGraph) (radius : Nat) (s : GsnState)
    (h : s.queue = []) : ∀ k, (gsnStep g radius)^[k] s = s := by
  intro k
  induction k with
  | zero => rfl
  | succ k ih =>
    rw [Function.iterate_succ_apply, gsnStep_nil g radius s h]
    exact ih

theorem gsn_drain (g : SemanticGraph) (radius : Nat) :
    ∀ (n : Nat) (s : GsnState), gsnMeasure g s ≤ n →
      ((gsnStep g radius)^[n] s).queue = [] := by
  intro n
  induction n with
  | zero =>
    intro s h
    rcases hq : s.queue with _ | ⟨e, rest⟩
    · simpa using hq
    · exfalso
      have hm : s.queue.length = rest.length + 1 := by rw [hq]; simp
      unfold gsnMeasure at h
      omega
  | succ n ih =>
    intro s h
    rcases hq : s.queue with _ | _
    · rw [gsn_iterate_fix g radius s hq (n + 1)]
      exact hq
    · have hlt := gsnStep_measure_lt g radius s (by rw [hq]; simp)
      rw [Function.iterate_succ_apply]
      exact ih _ (by omega)

theorem gsnFinal_queue_nil (g : SemanticGraph) (word : String)
    (radius : Nat) :
    ((gsnStep g radius)^[gsnFuel g word] (gsnInit word)).queue = [] :=
  gsn_drain g radius (gsnFuel g word) (gsnInit word) (le_refl _)

/-- The BFS loop invariant of `get_semantic_neighborhood`: queue and
accumulator entries carry their words' true fewest-hop distances (bounded
by the radius), the visited set is exactly the start plus the recorded and
pending words without duplication, queue distances are non-decreasing and
span at most two consecutive levels, and every popped word below the
radius has all its neighbors discovered. -/
def gsnInv (g : SemanticGraph) (start : String) (radius : Nat)
    (s : GsnState) : Prop :=
  (∀ p ∈ s.queue, g.distOpt start p.1 = some p.2 ∧ p.2 ≤ radius ∧
    (p.2 = 0 → p.1 = start)) ∧
  (∀ p ∈ s.acc, g.distOpt start p.2 = some p.1 ∧ 1 ≤ p.1 ∧ p.1 ≤ radius) ∧
  (∀ v, v ∈ s.visited ↔
    (v = start ∨ v ∈ s.acc.map (fun p => p.2) ∨
      v ∈ s.queue.map (fun p => p.1))) ∧
  s.visited.Nodup ∧
  (s.acc.map (fun p => p.2) ++ s.queue.map (fun p => p.1)).Nodup ∧
  (s.queue.map (fun p => p.2)).Pairwise (fun a b => a ≤ b) ∧
  (∀ p1 ∈ s.queue, ∀ p2 ∈ s.queue, p1.2 ≤ p2.2 + 1) ∧
  (∀ u du, ((u = start ∧ du = 0 ∧ u ∉ s.queue.map (fun p => p.1)) ∨
      (du, u) ∈ s.acc) → du < radius →
    ∀ v ∈ g.neighborsOf u, v ∈ s.visited)

/-- Below the least pending distance, BFS has already discovered every
vertex: if every queued entry is at distance at least `D ≤ radius`, then
every vertex whose true distance is at most `D` is visited. -/
theorem gsn_DL (g : SemanticGraph) (start : String) (radius : Nat)
    (s : GsnState) (hinv : gsnInv g start radius s)
    (D : Nat) (hD : D ≤ radius) (hDq : ∀ p ∈ s.queue, D ≤ p.2) :
    ∀ k, k ≤ D → ∀ v, g.distOpt start v = some k → v ∈ s.visited := by
  obtain ⟨hQ, hA, hV, _, _, _, _, hE1⟩ := hinv
  intro k
  induction k using Nat.strong_induction_on with
  | _ k ih =>
  intro hk v hvd
  rcases k with _ | k
  · have hvs : v = start := distOpt_eq_zero hvd
    subst hvs
    exact (hV v).2 (Or.inl rfl)
  · obtain ⟨u, hud, hnb⟩ := distOpt_pred hvd
    have hu_vis : u ∈ s.visited := ih k (by omega) (by omega) u hud
    rcases (hV u).1 hu_vis with hus | hu | hu
    · rw [hus] at hud hnb
      have hstart_notin : start ∉ s.queue.map (fun p => p.1) := by
        intro hin
        rw [List.mem_map] at hin
        obtain ⟨p, hp, hp1⟩ := hin
        obtain ⟨hpd, _, _⟩ := hQ p hp
        rw [hp1] at hpd
        have h00 := distOpt_self g start
        rw [h00] at hpd
        have hp2 : p.2 = 0 := (Option.some_inj.1 hpd).symm
        have := hDq p hp
        omega
      exact hE1 start 0 (Or.inl ⟨rfl, rfl, hstart_notin⟩) (by omega) v hnb
    · rw [List.mem_map] at hu
      obtain ⟨p, hp, hp2⟩ := hu
      obtain ⟨hpd, hp1ge, hprad⟩ := hA p hp
      rw [hp2] at hpd
      have hak : p.1 = k := by
        rw [hud] at hpd
        exact (Option.some_inj.1 hpd).symm
      have hmem : (k, u) ∈ s.acc := by
        have hpe : p = (k, u) := by
          obtain ⟨a, b⟩ := p
          simp only at hp2 hak
          rw [hp2, hak]
        rw [← hpe]
        exact hp
      exact hE1 u k (Or.inr hmem) (by omega) v hnb
    · exfalso
      rw [List.mem_map] at hu
      obtain ⟨p, hp, hp1⟩ := hu
      obtain ⟨hpd, _, _⟩ := hQ p hp
      rw [hp1] at hpd
      have hp2 : p.2 = k := by
        rw [hud] at hpd
        exact (Option.some_inj.1 hpd).symm
      have := hDq p hp
      omega

theorem pairwise_const_le (d : Nat) (l : List (String × Nat))
    (h : ∀ p ∈ l, p.2 = d) : (l.map (fun p => p.2)).Pairwise (· ≤ ·) := by
  induction l with
  | nil => simp
  | cons a l ih =>
    simp only [List.map_cons]
    refine List.pairwise_cons.2 ⟨?_, ih (fun p hp => h p (by simp [hp]))⟩
    intro b hb
    rw [List.mem_map] at hb
    obtain ⟨p, hp, rfl⟩ := hb
    rw [h a (by simp), h p (by simp [hp])]

set_option maxHeartbeats 1600000 in
theorem gsnStep_inv (g : SemanticGraph) (start : String) (radius : Nat)
    (s : GsnState) (hinv : gsnInv g start radius s) :
    gsnInv g start radius (gsnStep g radius s) := by
  rcases hq : s.queue with _ | ⟨⟨w0, d0⟩, qrest⟩
  · rw [gsnStep_nil g radius s hq]
    exact hinv
  · have hDL := gsn_DL g start radius s hinv d0
    obtain ⟨hQ, hA, hV, hVnd, hAQnd, hPW, hSpan, hE1⟩ := hinv
    have hhead : ∀ p ∈ s.queue, d0 ≤ p.2 := by
      intro p hp
      rw [hq] at hp
      rcases List.mem_cons.1 hp with heq | hp'
      · rw [heq]
      · have hpw := hPW
        rw [hq] at hpw
        simp only [List.map_cons] at hpw
        exact (List.pairwise_cons.1 hpw).1 p.2 (List.mem_map.2 ⟨p, hp', rfl⟩)
    rw [hq] at hQ hAQnd hPW hSpan hV hE1
    have hw0 : ((w0, d0) : String × Nat) ∈ (w0, d0) :: qrest := by simp
    obtain ⟨hw0d, hw0rad, hw0z⟩ := hQ (w0, d0) hw0
    simp only at hw0d hw0rad hw0z
    have hDL2 := hDL hw0rad hhead
    have hqr : ∀ p ∈ qrest, g.distOpt start p.1 = some p.2 ∧ p.2 ≤ radius ∧
        (p.2 = 0 → p.1 = start) := fun p hp => hQ p (by simp [hp])
    have hhead' : ∀ p ∈ qrest, d0 ≤ p.2 := by
      intro p hp
      refine hhead p ?_
      rw [hq]
      exact List.mem_cons_of_mem _ hp
    have haccvis : ∀ v ∈ s.acc.map (fun p => p.2), v ∈ s.visited := by
      intro v hv
      exact (hV v).2 (Or.inr (Or.inl hv))
    have hqrestvis : ∀ v ∈ qrest.map (fun p => p.1), v ∈ s.visited := by
      intro v hv
      refine (hV v).2 (Or.inr (Or.inr ?_))
      simp only [List.map_cons, List.mem_cons]
      exact Or.inr hv
    have hw0vis : w0 ∈ s.visited := by
      refine (hV w0).2 (Or.inr (Or.inr ?_))
      simp
    have hw0start : w0 = start → d0 = 0 := by
      intro he
      rw [he] at hw0d
      have h0 := distOpt_self g start
      rw [h0] at hw0d
      exact (Option.some_inj.1 hw0d).symm
    have hbig : (s.acc.map (fun p => p.2) ++
        w0 :: qrest.map (fun p => p.1)).Nodup := by
      simpa using hAQnd
    simp only [gsnStep, hq]
    by_cases hd : d0 < radius
    · rw [if_pos hd]
      obtain ⟨nw, hpush, hnwmem, hnbsub, hnwnd⟩ :=
        gsnPush_spec (d0 + 1) (g.neighborsOf w0) s.visited qrest
      rw [hpush]
      have hnwvis : ∀ v ∈ nw, v ∉ s.visited := fun v hv => (hnwmem v hv).2
      have hnwdist : ∀ v ∈ nw, g.distOpt start v = some (d0 + 1) := by
        intro v hv
        obtain ⟨hvn, hvnv⟩ := hnwmem v hv
        obtain ⟨dv, hdv, hdvle⟩ := distOpt_neighbor_le hw0d hvn
        have hge : ¬ dv ≤ d0 := fun hle => hvnv (hDL2 dv hle v hdv)
        rw [show d0 + 1 = dv from by omega]
        exact hdv
      have hvisnd' : (s.visited ++ nw).Nodup := by
        rw [List.nodup_append]
        exact ⟨hVnd, hnwnd, fun v hv hv2 => (hnwvis v hv2) hv⟩
      have hmapfst : (nw.map (fun v => (v, d0 + 1))).map (fun p => p.1) = nw := by
        rw [List.map_map]
        exact List.map_id' nw
      have hmapsnd : ∀ p ∈ nw.map (fun v => (v, d0 + 1)), p.2 = d0 + 1 := by
        intro p hp
        rw [List.mem_map] at hp
        obtain ⟨v, _, rfl⟩ := hp
        rfl
      have hbignw : ((s.acc.map (fun p => p.2) ++
          w0 :: qrest.map (fun p => p.1)) ++ nw).Nodup := by
        rw [List.nodup_append]
        refine ⟨hbig, hnwnd, ?_⟩
        intro v hv hv2
        rcases List.mem_append.1 hv with h1 | h1
        · exact hnwvis v hv2 (haccvis v h1)
        · rcases List.mem_cons.1 h1 with rfl | h1'
          · exact hnwvis v hv2 hw0vis
          · exact hnwvis v hv2 (hqrestvis v h1')
      refine ⟨?_, ?_, ?_, ?_, ?_, ?_, ?_, ?_⟩
      · intro p hp
        dsimp only at hp
        rcases List.mem_append.1 hp with hp1 | hp1
        · exact hqr p hp1
        · rw [List.mem_map] at hp1
          obtain ⟨v, hv, rfl⟩ := hp1
          exact ⟨hnwdist v hv, by omega, by omega⟩
      · intro p hp
        dsimp only at hp
        by_cases hd0 : 0 < d0
        · rw [if_pos hd0] at hp
          rcases List.mem_append.1 hp with hp1 | hp1
          · exact hA p hp1
          · have hpe : p = (d0, w0) := by simpa using hp1
            rw [hpe]
            exact ⟨hw0d, by omega, by omega⟩
        · rw [if_neg hd0] at hp
          exact hA p hp
      · intro v
        dsimp only
        have hVv := hV v
        simp only [List.map_cons, List.mem_cons] at hVv
        rw [List.mem_append, hVv, List.map_append, hmapfst]
        by_cases hd0 : 0 < d0
        · rw [if_pos hd0]
          simp only [List.map_append, List.mem_append, List.map_cons,
            List.map_nil, List.mem_singleton, List.mem_cons,
            List.not_mem_nil, or_false]
          tauto
        · rw [if_neg hd0]
          have hws : w0 = start := hw0z (by omega)
          simp only [List.mem_append]
          constructor
          · rintro ((h1 | h1 | h1 | h1) | h1)
            · exact Or.inl h1
            · exact Or.inr (Or.inl h1)
            · exact Or.inl (h1.trans hws)
            · exact Or.inr (Or.inr (Or.inl h1))
            · exact Or.inr (Or.inr (Or.inr h1))
          · rintro (h1 | h1 | h1 | h1)
            · exact Or.inl (Or.inl h1)
            · exact Or.inl (Or.inr (Or.inl h1))
            · exact Or.inl (Or.inr (Or.inr (Or.inr h1)))
            · exact Or.inr h1
      · exact hvisnd'
      · dsimp only
        rw [List.map_append, hmapfst]
        by_cases hd0 : 0 < d0
        · rw [if_pos hd0]
          have h5 := hbignw
          simp only [List.map_append, List.map_cons, List.map_nil,
            List.append_assoc, List.cons_append, List.nil_append,
            List.singleton_append] at h5 ⊢
          exact h5
        · rw [if_neg hd0]
          have h5 := hbignw
          simp only [List.append_assoc, List.cons_append,
            List.singleton_append] at h5 ⊢
          refine List.Nodup.sublist ?_ h5
          refine List.Sublist.append_left ?_ _
          exact List.sublist_cons_self _ _
      · dsimp only
        rw [List.map_append]
        rw [List.pairwise_append]
        refine ⟨?_, ?_, ?_⟩
        · have hpw := hPW
          simp only [List.map_cons] at hpw
          exact (List.pairwise_cons.1 hpw).2
        · exact pairwise_const_le (d0 + 1) _ hmapsnd
        · intro a ha b hb
          rw [List.mem_map] at ha
          obtain ⟨p, hp, rfl⟩ := ha
          rw [List.mem_map] at hb
          obtain ⟨p2, hp2, rfl⟩ := hb
          have h1 : p.2 ≤ d0 + 1 :=
            hSpan p (by simp [hp]) (w0, d0) (by simp)
          have h2 := hmapsnd p2 hp2
          omega
      · intro p1 hp1 p2 hp2
        dsimp only at hp1 hp2
        rcases List.mem_append.1 hp1 with h1 | h1 <;>
          rcases List.mem_append.1 hp2 with h2 | h2
        · exact hSpan p1 (by simp [h1]) p2 (by simp [h2])
        · have := hSpan p1 (by simp [h1]) (w0, d0) (by simp)
          have := hmapsnd p2 h2
          omega
        · have := hmapsnd p1 h1
          have := hhead' p2 h2
          omega
        · have := hmapsnd p1 h1
          have := hmapsnd p2 h2
          omega
      · intro u du hcase hdu
        dsimp only at hcase ⊢
        rcases hcase with ⟨hus, hdu0, hnotin⟩ | hacc
        · rw [List.map_append, hmapfst] at hnotin
          by_cases hws : w0 = start
          · intro v hv
            refine hnbsub v ?_
            rw [hus, ← hws] at hv
            exact hv
          · have hnotin_old : u ∉ (((w0, d0) :: qrest).map (fun p => p.1)) := by
              simp only [List.map_cons, List.mem_cons]
              rintro (h1 | h1)
              · exact hws (h1.symm.trans hus)
              · exact hnotin (List.mem_append.2 (Or.inl h1))
            intro v hv
            exact List.mem_append.2
              (Or.inl (hE1 u du (Or.inl ⟨hus, hdu0, hnotin_old⟩) hdu v hv))
        · by_cases hd0 : 0 < d0
          · rw [if_pos hd0] at hacc
            rcases List.mem_append.1 hacc with h1 | h1
            · intro v hv
              exact List.mem_append.2 (Or.inl (hE1 u du (Or.inr h1) hdu v hv))
            · have hpe : (du, u) = (d0, w0) := by
                simpa using h1
              have hu : u = w0 := congrArg Prod.snd hpe
              intro v hv
              refine hnbsub v ?_
              rw [hu] at hv
              exact hv
          · rw [if_neg hd0] at hacc
            intro v hv
            exact List.mem_append.2 (Or.inl (hE1 u du (Or.inr hacc) hdu v hv))
    · rw [if_neg hd]
      refine ⟨?_, ?_, ?_, ?_, ?_, ?_, ?_, ?_⟩
      · intro p hp
        dsimp only at hp
        exact hqr p hp
      · intro p hp
        dsimp only at hp
        by_cases hd0 : 0 < d0
        · rw [if_pos hd0] at hp
          rcases List.mem_append.1 hp with hp1 | hp1
          · exact hA p hp1
          · have hpe : p = (d0, w0) := by simpa using hp1
            rw [hpe]
            exact ⟨hw0d, by omega, by omega⟩
        · rw [if_neg hd0] at hp
          exact hA p hp
      · intro v
        dsimp only
        have hVv := hV v
        simp only [List.map_cons, List.mem_cons] at hVv
        rw [hVv]
        by_cases hd0 : 0 < d0
        · rw [if_pos hd0]
          simp only [List.map_append, List.mem_append, List.map_cons,
            List.map_nil, List.mem_singleton, List.mem_cons,
            List.not_mem_nil, or_false]
          tauto
        · rw [if_neg hd0]
          have hws : w0 = start := hw0z (by omega)
          constructor
          · rintro (h1 | h1 | h1 | h1)
            · exact Or.inl h1
            · exact Or.inr (Or.inl h1)
            · exact Or.inl (h1.trans hws)
            · exact Or.inr (Or.inr h1)
          · rintro (h1 | h1 | h1)
            · exact Or.inl h1
            · exact Or.inr (Or.inl h1)
            · exact Or.inr (Or.inr (Or.inr h1))
      · exact hVnd
      · dsimp only
        by_cases hd0 : 0 < d0
        · rw [if_pos hd0]
          have h5 := hbig
          simp only [List.map_append, List.map_cons, List.map_nil,
            List.append_assoc, List.cons_append, List.nil_append,
            List.singleton_append] at h5 ⊢
          exact h5
        · rw [if_neg hd0]
          have h5 := hbig
          refine List.Nodup.sublist ?_ h5
          refine List.Sublist.append_left ?_ _
          exact List.sublist_cons_self _ _
      · dsimp only
        have hpw := hPW
        simp only [List.map_cons] at hpw
        exact (List.pairwise_cons.1 hpw).2
      · intro p1 hp1 p2 hp2
        dsimp only at hp1 hp2
        exact hSpan p1 (by simp [hp1]) p2 (by simp [hp2])
      · intro u du hcase hdu
        dsimp only at hcase ⊢
        rcases hcase with ⟨hus, hdu0, hnotin⟩ | hacc
        · by_cases hws : w0 = start
          · have hd00 := hw0start hws
            omega
          · have hnotin_old : u ∉ (((w0, d0) :: qrest).map (fun p => p.1)) := by
              simp only [List.map_cons, List.mem_cons]
              rintro (h1 | h1)
              · exact hws (h1.symm.trans hus)
              · exact hnotin h1
            exact hE1 u du (Or.inl ⟨hus, hdu0, hnotin_old⟩) hdu
        · by_cases hd0 : 0 < d0
          · rw [if_pos hd0] at hacc
            rcases List.mem_append.1 hacc with h1 | h1
            · exact hE1 u du (Or.inr h1) hdu
            · have hpe : (du, u) = (d0, w0) := by
                simpa using h1
              have hdu2 : du = d0 := congrArg Prod.fst hpe
              omega
          · rw [if_neg hd0] at hacc
            exact hE1 u du (Or.inr hacc) hdu

theorem gsnInit_inv (g : SemanticGraph) (start : String) (radius : Nat) :
    gsnInv g start radius (gsnInit start) := by
  refine ⟨?_, ?_, ?_, ?_, ?_, ?_, ?_, ?_⟩
  · intro p hp
    have hpe : p = (start, 0) := by simpa [gsnInit] using hp
    rw [hpe]
    exact ⟨distOpt_self g start, by omega, fun _ => rfl⟩
  · intro p hp
    simp [gsnInit] at hp
  · intro v
    simp [gsnInit]
  · simp [gsnInit]
  · simp [gsnInit]
  · simp [gsnInit]
  · intro p1 hp1 p2 hp2
    have h1 : p1 = (start, 0) := by simpa [gsnInit] using hp1
    have h2 : p2 = (start, 0) := by simpa [gsnInit] using hp2
    rw [h1, h2]
    omega
  · intro u du hcase hdu
    rcases hcase with ⟨hus, hdu0, hnotin⟩ | hacc
    · exact absurd (by simp [gsnInit, hus]) hnotin
    · simp [gsnInit] at hacc

theorem gsn_iterate_inv (g : SemanticGraph) (start : String) (radius : Nat)
    (n : Nat) :
    gsnInv g start radius ((gsnStep g radius)^[n] (gsnInit start)) := by
  induction n with
  | zero => exact gsnInit_inv g start radius
  | succ n ih =>
    rw [Function.iterate_succ_apply']
    exact gsnStep_inv g start radius _ ih

/-! ## The `defaultdict` bookkeeping of `get_semantic_neighborhood` -/

theorem dictGet_isSome_iff (dict : List (Nat × List String)) (k : Nat) :
    (dict.any (fun e => e.1 == k)) = true ↔ (dictGet dict k).isSome = true := by
  unfold dictGet
  rw [List.any_eq_true]
  rcases h : dict.find? (fun e => e.1 == k) with _ | e
  · rw [h]
    rw [List.find?_eq_none] at h
    simp only [Option.map_none', Option.isSome_none, Bool.false_eq_true,
      iff_false]
    rintro ⟨e, he, hbeq⟩
    exact absurd hbeq (by simpa using h e he)
  · rw [h]
    have hbeq := List.find?_some h
    have hmem := List.mem_of_find?_eq_some h
    simp only [Option.map_some', Option.isSome_some, iff_true]
    exact ⟨e, hmem, hbeq⟩

theorem dictGet_update (dict : List (Nat × List String)) (k : Nat)
    (w : String) (d : Nat) :
    dictGet (dict.map (fun e => if e.1 == k then (e.1, e.2 ++ [w]) else e)) d =
      if d = k then (dictGet dict d).map (fun l => l ++ [w])
      else dictGet dict d := by
  induction dict with
  | nil => by_cases h : d = k <;> simp [dictGet, h]
  | cons e dict ih =>
    simp only [List.map_cons]
    by_cases hed : e.1 = d
    · by_cases hdk : d = k
      · have hek : (e.1 == k) = true := by simp [hed, hdk]
        rw [if_pos hdk]
        unfold dictGet
        rw [if_pos hek]
        rw [List.find?_cons_of_pos _ (by simp [hed]),
          List.find?_cons_of_pos _ (by simp [hed])]
        simp
      · have hekP : ¬ ((e.1 == k) = true) := by
          simp only [beq_iff_eq]
          intro hh
          exact hdk (hed.symm.trans hh)
        rw [if_neg hdk]
        unfold dictGet
        rw [if_neg hekP]
        rw [List.find?_cons_of_pos _ (by simp [hed]),
          List.find?_cons_of_pos _ (by simp [hed])]
    · by_cases hek : e.1 = k
      · have hb : (e.1 == k) = true := by simp [hek]
        unfold dictGet
        rw [if_pos hb]
        rw [List.find?_cons_of_neg _ (by simpa using hed),
          List.find?_cons_of_neg _ (by simpa using hed)]
        exact ih
      · have hbP : ¬ ((e.1 == k) = true) := by simpa using hek
        unfold dictGet
        rw [if_neg hbP]
        rw [List.find?_cons_of_neg _ (by simpa using hed),
          List.find?_cons_of_neg _ (by simpa using hed)]
        exact ih

theorem dictGet_append_new (dict : List (Nat × List String)) (k : Nat)
    (w : String) (d : Nat) :
    dictGet (dict ++ [(k, [w])]) d =
      if d = k then
        (if (dictGet dict d).isSome = true then dictGet dict d
         else some [w])
      else dictGet dict d := by
  induction dict with
  | nil =>
    by_cases h : d = k
    · simp [dictGet, h]
    · unfold dictGet
      rw [List.nil_append, if_neg h,
        List.find?_cons_of_neg _ (by simpa using fun hh => h hh.symm)]
  | cons e dict ih =>
    by_cases hed : e.1 = d
    · unfold dictGet
      rw [List.cons_append,
        List.find?_cons_of_pos _ (by simp [hed]),
        List.find?_cons_of_pos _ (by simp [hed])]
      by_cases hdk : d = k <;> simp [hdk]
    · unfold dictGet
      rw [List.cons_append,
        List.find?_cons_of_neg _ (by simpa using hed),
        List.find?_cons_of_neg _ (by simpa using hed)]
      exact ih

theorem dictGet_foldl (acc : List (Nat × String))
    (dict : List (Nat × List String)) (d : Nat) :
    dictGet (acc.foldl dictStep dict) d =
      if acc.filter (fun q => q.1 == d) = [] then dictGet dict d
      else some ((dictGet dict d).getD [] ++
        (acc.filter (fun q => q.1 == d)).map (·.2)) := by
  induction acc generalizing dict with
  | nil => simp
  | cons p acc ih =>
    rw [List.foldl_cons, ih]
    by_cases hpd : p.1 = d
    · have hfil : (p :: acc).filter (fun q => q.1 == d) =
          p :: acc.filter (fun q => q.1 == d) := by
        rw [List.filter_cons, if_pos (by simp [hpd])]
      have hX : dictGet (dictStep dict p) d =
          some ((dictGet dict d).getD [] ++ [p.2]) := by
        by_cases hany : (dict.any (fun e => e.1 == p.1)) = true
        · have hs := (dictGet_isSome_iff dict p.1).1 hany
          rw [hpd] at hs
          rcases hD : dictGet dict d with _ | l
          · rw [hD] at hs
            exact absurd hs (by simp)
          · rw [show dictStep dict p =
                dict.map (fun e => if e.1 == p.1 then (e.1, e.2 ++ [p.2]) else e)
                from if_pos hany,
              dictGet_update, if_pos hpd.symm, hD]
            simp
        · have hnone : dictGet dict d = none := by
            rcases hD : dictGet dict d with _ | l
            · rfl
            · exact absurd ((dictGet_isSome_iff dict p.1).2
                (by rw [hpd, hD]; rfl)) hany
          rw [show dictStep dict p = dict ++ [(p.1, [p.2])] from if_neg hany,
            dictGet_append_new, if_pos hpd.symm, hnone]
          simp
      rw [hX, hfil]
      by_cases hae : acc.filter (fun q => q.1 == d) = [] <;>
        simp [hae, List.append_assoc]
    · have hfil : (p :: acc).filter (fun q => q.1 == d) =
          acc.filter (fun q => q.1 == d) := by
        rw [List.filter_cons, if_neg (by simp [hpd])]
      have hX : dictGet (dictStep dict p) d = dictGet dict d := by
        by_cases hany : (dict.any (fun e => e.1 == p.1)) = true
        · rw [show dictStep dict p =
              dict.map (fun e => if e.1 == p.1 then (e.1, e.2 ++ [p.2]) else e)
              from if_pos hany,
            dictGet_update, if_neg (fun h => hpd h.symm)]
        · rw [show dictStep dict p = dict ++ [(p.1, [p.2])] from if_neg hany,
            dictGet_append_new, if_neg (fun h => hpd h.symm)]
      rw [hX, hfil]

theorem dictGet_dictOf (acc : List (Nat × String)) (d : Nat) :
    dictGet (dictOf acc) d =
      if acc.filter (fun q => q.1 == d) = [] then none
      else some ((acc.filter (fun q => q.1 == d)).map (·.2)) := by
  unfold dictOf
  rw [dictGet_foldl]
  simp [dictGet]

/-- C6: `get_semantic_neighborhood` returns the empty mapping when the
word is absent from the graph; otherwise every populated distance key `d`
satisfies `1 ≤ d ≤ radius`, its word list is nonempty and duplicate-free,
excludes the center word, and contains only words whose true fewest-hop
distance from the center is exactly `d` (so no word ever appears below its
true BFS distance, and it appears under at most one key); conversely,
every word at true distance `d` with `1 ≤ d ≤ radius` appears under
key `d`. -/
theorem C6_get_semantic_neighborhood (g : SemanticGraph) (word : String)
    (radius : Nat) :
    (g.hasNodeW word = false → get_semantic_neighborhood g word radius = []) ∧
    (∀ d ws, dictGet (get_semantic_neighborhood g word radius) d = some ws →
      1 ≤ d ∧ d ≤ radius ∧ ws ≠ [] ∧ ws.Nodup ∧ word ∉ ws ∧
        ∀ w ∈ ws, g.distOpt word w = some d) ∧
    (∀ w d, g.distOpt word w = some d → 1 ≤ d → d ≤ radius →
      g.hasNodeW word = true →
      ∃ ws, dictGet (get_semantic_neighborhood g word radius) d = some ws ∧
        w ∈ ws) := by
  refine ⟨?_, ?_, ?_⟩
  · intro h
    unfold get_semantic_neighborhood
    rw [if_pos (by simp [h])]
  · intro d ws hws
    by_cases hnode : g.hasNodeW word = true
    swap
    · exfalso
      unfold get_semantic_neighborhood at hws
      rw [if_pos (by simpa using hnode)] at hws
      simp [dictGet] at hws
    have hGSN : get_semantic_neighborhood g word radius =
        dictOf ((gsnStep g radius)^[gsnFuel g word] (gsnInit word)).acc := by
      unfold get_semantic_neighborhood
      rw [if_neg (by simp [hnode])]
    rw [hGSN, dictGet_dictOf] at hws
    have hqnil := gsnFinal_queue_nil g word radius
    obtain ⟨hQ, hA, hV, hnd, hndAQ, hPW, hSp, hE1⟩ :=
      gsn_iterate_inv g word radius (gsnFuel g word)
    by_cases hfe :
        ((gsnStep g radius)^[gsnFuel g word] (gsnInit word)).acc.filter
          (fun q => q.1 == d) = []
    · rw [if_pos hfe] at hws
      exact absurd hws (by simp)
    rw [if_neg hfe] at hws
    have hwseq : ws =
        (((gsnStep g radius)^[gsnFuel g word] (gsnInit word)).acc.filter
          (fun q => q.1 == d)).map (·.2) :=
      (Option.some_inj.1 hws).symm
    obtain ⟨p, hpf⟩ := List.exists_mem_of_ne_nil _ hfe
    have hp := List.mem_filter.1 hpf
    obtain ⟨hpacc, hpdb⟩ := hp
    rw [beq_iff_eq] at hpdb
    obtain ⟨hpdist, hp1, hprad⟩ := hA p hpacc
    have h1d : 1 ≤ d := hpdb ▸ hp1
    have hdrad : d ≤ radius := hpdb ▸ hprad
    have hmem : ∀ w ∈ ws, g.distOpt word w = some d := by
      intro w hw
      rw [hwseq, List.mem_map] at hw
      obtain ⟨q, hq, hq2⟩ := hw
      rw [List.mem_filter] at hq
      obtain ⟨hqacc, hqdb⟩ := hq
      rw [beq_iff_eq] at hqdb
      obtain ⟨hqdist, _, _⟩ := hA q hqacc
      rw [hq2, hqdb] at hqdist
      exact hqdist
    refine ⟨h1d, hdrad, ?_, ?_, ?_, hmem⟩
    · intro hmn
      rw [hwseq] at hmn
      have hlen := congrArg List.length hmn
      rw [List.length_map, List.length_nil] at hlen
      exact hfe (List.eq_nil_of_length_eq_zero hlen)
    · rw [hqnil, List.map_nil, List.append_nil] at hndAQ
      rw [hwseq]
      exact hndAQ.sublist ((List.filter_sublist _).map _)
    · intro hin
      have hww := hmem word hin
      rw [distOpt_self] at hww
      have h0d : (0 : Nat) = d := Option.some_inj.1 hww
      omega
  · intro w d hdist h1 hrad hnode
    have hGSN : get_semantic_neighborhood g word radius =
        dictOf ((gsnStep g radius)^[gsnFuel g word] (gsnInit word)).acc := by
      unfold get_semantic_neighborhood
      rw [if_neg (by simp [hnode])]
    have hqnil := gsnFinal_queue_nil g word radius
    obtain ⟨hQ, hA, hV, hnd, hndAQ, hPW, hSp, hE1⟩ :=
      gsn_iterate_inv g word radius (gsnFuel g word)
    have hvis := gsn_DL g word radius
      ((gsnStep g radius)^[gsnFuel g word] (gsnInit word))
      (gsn_iterate_inv g word radius (gsnFuel g word)) radius (le_refl _)
      (by
        intro p hp
        rw [hqnil] at hp
        simp at hp) d hrad w hdist
    rcases (hV w).1 hvis with hws0 | hacc | hq
    · exfalso
      rw [hws0, distOpt_self] at hdist
      have h0d : (0 : Nat) = d := Option.some_inj.1 hdist
      omega
    · rw [List.mem_map] at hacc
      obtain ⟨p, hp, hp2⟩ := hacc
      obtain ⟨hpdist, _, _⟩ := hA p hp
      rw [hp2] at hpdist
      have hpd : p.1 = d := Option.some_inj.1 (hpdist.symm.trans hdist)
      have hpf : p ∈ ((gsnStep g radius)^[gsnFuel g word]
          (gsnInit word)).acc.filter (fun q => q.1 == d) :=
        List.mem_filter.2 ⟨hp, by simp [hpd]⟩
      refine ⟨(((gsnStep g radius)^[gsnFuel g word]
          (gsnInit word)).acc.filter (fun q => q.1 == d)).map (·.2), ?_, ?_⟩
      · rw [hGSN, dictGet_dictOf, if_neg (List.ne_nil_of_mem hpf)]
      · rw [List.mem_map]
        exact ⟨p, hpf, hp2⟩
    · exfalso
      rw [hqnil] at hq
      simp at hq

/-- Witness for C6 on the two-node graph `state — ease`: at radius 1 the
neighborhood of `state` maps distance 1 to a list containing `ease`. -/
theorem C6_get_semantic_neighborhood_witness :
    ∃ ws, dictGet (get_semantic_neighborhood exGraphSE "state" 1) 1 = some ws ∧
      "ease" ∈ ws :=
  (C6_get_semantic_neighborhood exGraphSE "state" 1).2.2 "ease" 1 rfl
    (by decide) (by decide) rfl

end ALLA
